import Mathlib

/-!
Verification development for the XRootD request manager
(`Utilities/XrdAdaptor/src/XrdRequestManager.cc`).

The first half embeds the scatter-list splitting machinery
(`consumeChunkFront`, `consumeChunkBack`, `splitClientRequest`) as pure
functions on lists.  `IOSize` values (`size_t`) are modelled as `Nat`,
`IOOffset` values (`int64_t`) as `Int`, and the `void*` data pointer as a
`Nat` address.  The in-place mutation of the working vector is modelled by
returning the updated list; the `front` cursor is threaded explicitly.

The C++ inner loops always terminate (each iteration either consumes at
least one byte of the chunk budget or shrinks the live region), so they are
given as structurally recursive functions on a fuel argument that is always
called with fuel strictly larger than the maximal possible number of
iterations (`chunksize + input.length + 1`); a lemma below shows the loop
guard is false at the returned state, i.e. the fuel is never exhausted.
The outer loop of `splitClientRequest` genuinely diverges when both chunk
budgets are zero, so it returns an `Option`, with `none` marking
non-termination.

The `emptyBackBind` flag instruments the line `IOPosBuffer &outio =
output.back();`, which the C++ executes at the top of every loop iteration
before the `output.size()` guard: the flag becomes true as soon as an
iteration starts with an empty output vector, i.e. as soon as `back()` is
taken of an empty vector.
-/

/-- Model of `IOPosBuffer`: a scatter/gather fragment descriptor. -/
structure IOPosBuffer where
  offset : Int
  data : Nat
  size : Nat
deriving Repr, DecidableEq

/-- `XRD_CL_MAX_CHUNK = 512*1024`. -/
def XRD_CL_MAX_CHUNK : Nat := 512 * 1024

/-- `XRD_ADAPTOR_SHORT_OPEN_DELAY = 5` (seconds). -/
def XRD_ADAPTOR_SHORT_OPEN_DELAY : Int := 5

/-- `XRD_ADAPTOR_LONG_OPEN_DELAY = 2*60` (seconds, non-debug build). -/
def XRD_ADAPTOR_LONG_OPEN_DELAY : Int := 2 * 60

/-- `XRD_ADAPTOR_OPEN_PROBE_PERCENT = 10` (non-debug build). -/
def XRD_ADAPTOR_OPEN_PROBE_PERCENT : Nat := 10

/-- `XRD_ADAPTOR_SOURCE_QUALITY_FUDGE = 100` (non-debug build). -/
def XRD_ADAPTOR_SOURCE_QUALITY_FUDGE : Nat := 100

/-- Total byte count of a fragment list (`sum of it.size()`). -/
def sumSize (l : List IOPosBuffer) : Nat :=
  (l.map IOPosBuffer.size).sum

/-- The common tail of the `io.size() > chunksize` branch of both consume
functions: `io.set_offset(offset+consumed); io.set_data(data+consumed);
io.set_size(size-consumed)`. -/
def advanceIO (io : IOPosBuffer) (consumed : Nat) : IOPosBuffer :=
  { offset := io.offset + consumed, data := io.data + consumed, size := io.size - consumed }

/-- Result of one call to `consumeChunkFront` / `consumeChunkBack`:
the final cursor, the updated working vector, the updated output vector,
the remaining chunk budget, and the `output.back()`-of-empty-vector
instrumentation flag. -/
structure ConsumeResult where
  front : Nat
  input : List IOPosBuffer
  output : List IOPosBuffer
  chunk : Nat
  emptyBackBind : Bool
deriving Repr, DecidableEq

/-- Loop body of `consumeChunkFront` (fuel-indexed; the wrapper below always
supplies sufficient fuel). -/
def consumeChunkFrontGo : Nat → Nat → List IOPosBuffer → List IOPosBuffer → Nat → Bool →
    ConsumeResult
  | 0, front, input, output, chunksize, eb => ⟨front, input, output, chunksize, eb⟩
  | fuel + 1, front, input, output, chunksize, eb =>
    if h : 0 < chunksize ∧ front < input.length then
      let io := input.get ⟨front, h.2⟩
      let eb' := eb || output.isEmpty
      if chunksize < io.size then
        match output.getLast? with
        | some outio =>
          if outio.size < XRD_CL_MAX_CHUNK ∧ outio.offset + (outio.size : Int) = io.offset then
            if XRD_CL_MAX_CHUNK < outio.size + chunksize then
              consumeChunkFrontGo fuel front
                (input.set front ( advanceIO io (XRD_CL_MAX_CHUNK - outio.size)))
                (output.dropLast ++ [{ outio with size := XRD_CL_MAX_CHUNK }])
                (chunksize - (XRD_CL_MAX_CHUNK - outio.size)) eb'
            else
              consumeChunkFrontGo fuel front
                (input.set front ( advanceIO io chunksize))
                (output.dropLast ++ [{ outio with size := outio.size + chunksize }])
                0 eb'
          else
            consumeChunkFrontGo fuel front
              (input.set front ( advanceIO io chunksize))
              (output ++ [⟨io.offset, io.data, chunksize⟩]) 0 eb'
        | none =>
            consumeChunkFrontGo fuel front
              (input.set front ( advanceIO io chunksize))
              (output ++ [⟨io.offset, io.data, chunksize⟩]) 0 eb'
      else if io.size = 0 then
        consumeChunkFrontGo fuel (front + 1) input output chunksize eb'
      else
        consumeChunkFrontGo fuel (front + 1) input (output ++ [io]) (chunksize - io.size) eb'
    else ⟨front, input, output, chunksize, eb⟩

/-- `consumeChunkFront(front, input, output, chunksize)`: consume up to
`chunksize` bytes from the front cursor of `input` into `output`. -/
def consumeChunkFront (front : Nat) (input output : List IOPosBuffer) (chunksize : Nat)
    (eb : Bool) : ConsumeResult :=
  consumeChunkFrontGo (chunksize + input.length + 1) front input output chunksize eb

/-- Loop body of `consumeChunkBack` (fuel-indexed; the wrapper below always
supplies sufficient fuel).  `front` is passed by value in the C++ and never
changes; `input.back()` is mutated in place (modelled by
`input.dropLast ++ [...]`) and `pop_back` by `input.dropLast`. -/
def consumeChunkBackGo : Nat → Nat → List IOPosBuffer → List IOPosBuffer → Nat → Bool →
    ConsumeResult
  | 0, front, input, output, chunksize, eb => ⟨front, input, output, chunksize, eb⟩
  | fuel + 1, front, input, output, chunksize, eb =>
    if _h : 0 < chunksize ∧ front < input.length then
      match input.getLast? with
      | none => ⟨front, input, output, chunksize, eb⟩
      | some io =>
        let eb' := eb || output.isEmpty
        if chunksize < io.size then
          match output.getLast? with
          | some outio =>
            if outio.size < XRD_CL_MAX_CHUNK ∧ outio.offset + (outio.size : Int) = io.offset then
              if XRD_CL_MAX_CHUNK < outio.size + chunksize then
                consumeChunkBackGo fuel front
                  (input.dropLast ++ [ advanceIO io (XRD_CL_MAX_CHUNK - outio.size)])
                  (output.dropLast ++ [{ outio with size := XRD_CL_MAX_CHUNK }])
                  (chunksize - (XRD_CL_MAX_CHUNK - outio.size)) eb'
              else
                consumeChunkBackGo fuel front
                  (input.dropLast ++ [ advanceIO io chunksize])
                  (output.dropLast ++ [{ outio with size := outio.size + chunksize }])
                  0 eb'
            else
              consumeChunkBackGo fuel front
                (input.dropLast ++ [ advanceIO io chunksize])
                (output ++ [⟨io.offset, io.data, chunksize⟩]) 0 eb'
          | none =>
              consumeChunkBackGo fuel front
                (input.dropLast ++ [ advanceIO io chunksize])
                (output ++ [⟨io.offset, io.data, chunksize⟩]) 0 eb'
        else if io.size = 0 then
          consumeChunkBackGo fuel front input.dropLast output chunksize eb'
        else
          consumeChunkBackGo fuel front input.dropLast (output ++ [io]) (chunksize - io.size) eb'
    else ⟨front, input, output, chunksize, eb⟩

/-- `consumeChunkBack(front, input, output, chunksize)`: consume up to
`chunksize` bytes from the back of `input` (down to the `front` cursor)
into `output`. -/
def consumeChunkBack (front : Nat) (input output : List IOPosBuffer) (chunksize : Nat)
    (eb : Bool) : ConsumeResult :=
  consumeChunkBackGo (chunksize + input.length + 1) front input output chunksize eb

/-- The final `std::sort(req.begin(), req.end(), offset comparator)`.
`std::sort` with the strict comparator produces some permutation sorted by
non-decreasing offset; insertion sort realises one such permutation. -/
def sortByOffset (l : List IOPosBuffer) : List IOPosBuffer :=
  List.insertionSort (fun a b => a.offset ≤ b.offset) l

/-- Result of `splitClientRequest`: the two (sorted) output lists `req1` and
`req2`, plus the `output.back()`-of-empty-vector instrumentation flags of
the front and back consume loops. -/
structure SplitResult where
  req1 : List IOPosBuffer
  req2 : List IOPosBuffer
  emptyBind1 : Bool
  emptyBind2 : Bool
deriving Repr, DecidableEq

/-- The outer loop `while (tmp_iolist.size()-front > 0)` of
`splitClientRequest`.  This loop diverges when both chunk budgets are zero
and the live region is non-empty, so fuel exhaustion returns `none`. -/
def splitLoopGo : Nat → Nat → List IOPosBuffer → List IOPosBuffer → List IOPosBuffer →
    Bool → Bool → Nat → Nat → Option (Nat × List IOPosBuffer × SplitResult)
  | 0, _, _, _, _, _, _, _, _ => none
  | fuel + 1, front, tmp, req1, req2, e1, e2, chunk1, chunk2 =>
    if front < tmp.length then
      let r1 := consumeChunkFront front tmp req1 chunk1 e1
      let r2 := consumeChunkBack r1.front r1.input req2 chunk2 e2
      splitLoopGo fuel r2.front r2.input r1.output r2.output r1.emptyBackBind r2.emptyBackBind
        chunk1 chunk2
    else some (front, tmp, ⟨req1, req2, e1, e2⟩)

/-- `XrdAdaptor::RequestManager::splitClientRequest(iolist, req1, req2)`.
The chunk budgets `chunk1`/`chunk2` are parameters: the C++ computes them
from the two active sources' qualities in single-precision float arithmetic
(`chunk_i = float(XRD_CL_MAX_CHUNK) * (q_other / (q1+q2))`), which always
yields values in `[0, XRD_CL_MAX_CHUNK]` when `q1+q2 > 0`.  Theorems below
quantify over these parameters. -/
def splitClientRequest (chunk1 chunk2 : Nat) (iolist : List IOPosBuffer) :
    Option SplitResult :=
  if iolist.length = 0 then some ⟨[], [], false, false⟩
  else
    match splitLoopGo (sumSize iolist + iolist.length + 1) 0 iolist [] [] false false
        chunk1 chunk2 with
    | none => none
    | some (_, _, r) =>
      some ⟨sortByOffset r.req1, sortByOffset r.req2, r.emptyBind1, r.emptyBind2⟩

/-!
State model of the `RequestManager`.

`timespec` is modelled as integer seconds/nanoseconds.  A `Source` carries
its immutable `id`, its `quality`, its `lastDowngrade` timestamp, and a
`tag` modelling the object identity of the underlying `shared_ptr` (two
distinct `Source` allocations may share an `id` but never a `tag`).
`std::set` members are modelled as lists with insert-if-absent.

Randomness (`m_distribution(m_generator)`), the asynchronous transport
and the open future are modelled as explicit parameters; the request to
`m_open_handler.open()` is reported as a returned `Bool`.
-/

/-- Model of `timespec`. -/
structure Timespec where
  sec : Int
  nsec : Int
deriving Repr, DecidableEq

/-- `timeDiffMS(a, b)`: `(a.sec - b.sec)*1000` plus the nanosecond
difference divided by `1e6`, with the C `+=` converting the double sum
back to `long long` by truncation toward zero (`Int.tdiv`); exact for the
magnitudes a monotonic clock produces. -/
def timeDiffMS (a b : Timespec) : Int :=
  Int.tdiv ((a.sec - b.sec) * 1000 * 1000000 + (a.nsec - b.nsec)) 1000000

/-- Model of `Source`: immutable `id`, mutable `quality` and
`lastDowngrade`, and a `tag` standing for the object identity of the
`shared_ptr<Source>`. -/
structure Source where
  id : String
  quality : Nat
  lastDowngrade : Timespec
  tag : Nat
deriving Repr, DecidableEq

/-- `std::set<std::string>::insert`. -/
def insertString (s : String) (l : List String) : List String :=
  if s ∈ l then l else l ++ [s]

/-- `std::set<std::shared_ptr<Source>>::insert` (keyed on object identity). -/
def insertSource (s : Source) (l : List Source) : List Source :=
  if l.any (fun t => t.tag = s.tag) then l else l ++ [s]

/-- The manager state guarded by `m_source_mutex`. -/
structure RMState where
  activeSources : List Source
  inactiveSources : List Source
  disabledSources : List Source
  disabledSourceStrings : List String
  lastSourceCheck : Timespec
  nextActiveSourceCheck : Timespec
  nextInitialSourceToggle : Bool
deriving Repr, DecidableEq

/-- Object tags across the three source collections. -/
def sourceTags (st : RMState) : List Nat :=
  (st.activeSources ++ st.inactiveSources ++ st.disabledSources).map Source.tag

/-- Invariant: every source object lives in at most one of the three
collections (no tag occurs twice across them). -/
def collectionsDisjoint (st : RMState) : Prop :=
  (sourceTags st).Nodup

/-- `RequestManager::compareSources(now, a, b)`: demote `activeSources[a]`
when its quality is absolutely (`> 5130`) or relatively (`> 260` and more
than four times `activeSources[b]`'s) bad.  Returns the `findNewSource`
flag and the updated state. -/
def compareSources (st : RMState) (now : Timespec) (a b : Nat) : Bool × RMState :=
  if h : st.activeSources.length < max a b + 1 then (false, st)
  else
    let ha : a < st.activeSources.length :=
      Nat.lt_of_lt_of_le (Nat.lt_succ_of_le (Nat.le_max_left a b)) (Nat.le_of_not_lt h)
    let hb : b < st.activeSources.length :=
      Nat.lt_of_lt_of_le (Nat.lt_succ_of_le (Nat.le_max_right a b)) (Nat.le_of_not_lt h)
    let sa := st.activeSources.get ⟨a, ha⟩
    let sb := st.activeSources.get ⟨b, hb⟩
    if 5130 < sa.quality ∨ (260 < sa.quality ∧ sb.quality * 4 < sa.quality) then
      (decide (sa.lastDowngrade.sec ≠ 0),
       { st with
          inactiveSources := st.inactiveSources ++ [{ sa with lastDowngrade := now }],
          activeSources := st.activeSources.eraseIdx a })
    else (false, st)

/-- Eligibility for re-promotion before any swap:
`timeDiffMS(now, lastDowngrade) > (SHORT_OPEN_DELAY-1)*1000`. -/
def eligibleShort (now : Timespec) (s : Source) : Bool :=
  decide ((XRD_ADAPTOR_SHORT_OPEN_DELAY - 1) * 1000 < timeDiffMS now s.lastDowngrade)

/-- Eligibility used when recomputing inside the swap loop:
`timeDiffMS(now, lastDowngrade) > (LONG_OPEN_DELAY-1)*1000`. -/
def eligibleLong (now : Timespec) (s : Source) : Bool :=
  decide ((XRD_ADAPTOR_LONG_OPEN_DELAY - 1) * 1000 < timeDiffMS now s.lastDowngrade)

/-- `std::min_element` with the quality comparator: first element of
minimal quality (later elements replace only on strictly smaller quality). -/
def firstMinQ : List Source → Option Source
  | [] => none
  | x :: xs => some (xs.foldl (fun m s => if s.quality < m.quality then s else m) x)

/-- Accumulator loop for `firstMaxQIdx`. -/
def firstMaxQIdxGo : List Source → Nat → Nat → Source → Nat × Source
  | [], _, bi, b => (bi, b)
  | s :: t, i, bi, b =>
    if b.quality < s.quality then firstMaxQIdxGo t (i + 1) i s
    else firstMaxQIdxGo t (i + 1) bi b

/-- `std::max_element` with the quality comparator: index and value of the
first element of maximal quality. -/
def firstMaxQIdx : List Source → Option (Nat × Source)
  | [] => none
  | x :: xs => some (firstMaxQIdxGo xs 1 0 x)

/-- The `while` swap loop of `checkSourcesImpl` (lines 277-296): as long as
a best eligible inactive source exists and the worst active source is more
than `FUDGE` worse, demote the worst active (stamping `lastDowngrade`) and
promote the best inactive, then recompute eligibility with the long
window.  Each iteration strictly shrinks the eligible list (the demoted
source is not long-eligible at `now`), so `inactive.length + 1` fuel is
never exhausted. -/
def swapLoopGo : Nat → List Source → List Source → List Source → Timespec →
    List Source × List Source
  | 0, active, inactive, _, _ => (active, inactive)
  | fuel + 1, active, inactive, eligible, now =>
    match firstMinQ eligible, firstMaxQIdx active with
    | some best, some (wi, worst) =>
      if best.quality + XRD_ADAPTOR_SOURCE_QUALITY_FUDGE < worst.quality then
        let inactive1 := inactive.eraseP (fun (s : Source) => decide (s.tag = best.tag))
        let inactive2 := inactive1 ++ [{ worst with lastDowngrade := now }]
        let active' := active.eraseIdx wi ++ [best]
        let eligible' := inactive2.filter (eligibleLong now)
        swapLoopGo fuel active' inactive2 eligible' now
      else (active, inactive)
    | _, _ => (active, inactive)

/-- Body of `checkSourcesImpl` up to (and including) the `if
(findNewSource)` block: pairwise comparison and demotion, promotion of the
best eligible inactive source (or the quality swap loop), the random probe
decision, and the `m_lastSourceCheck` stamp when an open is requested.
Returns the state and the `findNewSource` flag. -/
def checkSourcesImplCore (st : RMState) (now : Timespec) (r : Nat) : RMState × Bool :=
  let fam :=
    if st.activeSources.length ≤ 1 then
      (true, st.activeSources, st.inactiveSources)
    else
      let p1 := compareSources st now 0 1
      let p2 := compareSources p1.2 now 1 0
      let fns0 := p1.1 || p2.1
      let st2 := p2.2
      let eligible := st2.inactiveSources.filter (eligibleShort now)
      let ai :=
        match firstMinQ eligible with
        | some best =>
          if st2.activeSources.length = 1 then
            (st2.activeSources ++ [best],
             st2.inactiveSources.eraseP (fun (s : Source) => decide (s.tag = best.tag)))
          else
            swapLoopGo (st2.inactiveSources.length + 1) st2.activeSources st2.inactiveSources
              eligible now
        | none => (st2.activeSources, st2.inactiveSources)
      let fns :=
        if !fns0 && decide (1000 * XRD_ADAPTOR_LONG_OPEN_DELAY < timeDiffMS now st.lastSourceCheck)
        then (if r < XRD_ADAPTOR_OPEN_PROBE_PERCENT then true else fns0)
        else fns0
      (fns, ai.1, ai.2)
  let st3 := { st with activeSources := fam.2.1, inactiveSources := fam.2.2 }
  (if fam.1 then { st3 with lastSourceCheck := now } else st3, fam.1)

/-- `RequestManager::checkSourcesImpl(now, requestSize)`.  `r` is the draw
of `m_distribution(m_generator)` on `[0,100)`.  Returns the updated state
and whether `m_open_handler.open()` was requested (`findNewSource`).  The
final block schedules the next check: `now.tv_sec` is advanced by
`LONG_OPEN_DELAY - SHORT_OPEN_DELAY` when two sources are active and by
`SHORT_OPEN_DELAY` otherwise, and `m_nextActiveSourceCheck` is set to the
advanced `now`. -/
def checkSourcesImpl (st : RMState) (now : Timespec) (r : Nat) : RMState × Bool :=
  let c := checkSourcesImplCore st now r
  let delta :=
    if c.1.activeSources.length = 2 then
      XRD_ADAPTOR_LONG_OPEN_DELAY - XRD_ADAPTOR_SHORT_OPEN_DELAY
    else XRD_ADAPTOR_SHORT_OPEN_DELAY
  ({ c.1 with nextActiveSourceCheck := ⟨now.sec + delta, now.nsec⟩ }, c.2)

/-- `RequestManager::handleOpen(status, source)`: on success reject
duplicates of an active or inactive id (deferring the next check), else
push to `activeSources` if fewer than two are active, otherwise to
`inactiveSources`; on failure only defer the next check. -/
def handleOpen (st : RMState) (statusOk : Bool) (source : Source) : RMState :=
  let defer := { st with nextActiveSourceCheck :=
    { st.nextActiveSourceCheck with sec := st.nextActiveSourceCheck.sec +
        (XRD_ADAPTOR_LONG_OPEN_DELAY - XRD_ADAPTOR_SHORT_OPEN_DELAY) } }
  if statusOk then
    if st.activeSources.any (fun s => s.id = source.id) then defer
    else if st.inactiveSources.any (fun s => s.id = source.id) then defer
    else if st.activeSources.length < 2 then
      { st with activeSources := st.activeSources ++ [source] }
    else
      { st with inactiveSources := st.inactiveSources ++ [source] }
  else defer

/-- The `XrdCl::Status::code` values `requestFailure` distinguishes. -/
inductive StatusCode where
  | errInvalidResponse
  | otherError
deriving Repr, DecidableEq

/-- Outcome of waiting on `m_open_handler.open()`'s shared future for
`m_timeout + 10` seconds. -/
inductive OpenOutcome where
  | timeout
  | failed
  | opened (s : Source)
deriving Repr, DecidableEq

/-- The exceptions `requestFailure` can propagate. -/
inductive RFError where
  | fileReadError
  | fileOpenTimeout
  | fileOpenRethrown
  | fileOpenExcluded
deriving Repr, DecidableEq

/-- `RequestManager::requestFailure(c_ptr, c_status)`.  `source_ptr` is the
request's current source, `openOutcome` the result of the bounded wait on
the recovery open (only consulted when no active source remains).  Returns
the state as left behind when the function exits (normally or by throw)
and either the error thrown or the source the request is re-dispatched to. -/
def requestFailure (st : RMState) (now : Timespec) (source_ptr : Source) (code : StatusCode)
    (openOutcome : OpenOutcome) : RMState × Except RFError Source :=
  if code = StatusCode.errInvalidResponse then (st, .error .fileReadError)
  else
    let st1 := { st with
      disabledSourceStrings := insertString source_ptr.id st.disabledSourceStrings,
      disabledSources := insertSource source_ptr st.disabledSources }
    let act :=
      match st1.activeSources with
      | [] => st1.activeSources
      | s0 :: rest =>
        if s0.tag = source_ptr.tag then rest
        else
          match rest with
          | [] => st1.activeSources
          | s1 :: rest2 => if s1.tag = source_ptr.tag then s0 :: rest2 else st1.activeSources
    let st2 := { st1 with activeSources := act }
    if h : st2.activeSources.length = 0 then
      let st3 := { st2 with lastSourceCheck := now }
      match openOutcome with
      | .timeout => (st3, .error .fileOpenTimeout)
      | .failed => (st3, .error .fileOpenRethrown)
      | .opened ns =>
        if ns.id ∈ st3.disabledSourceStrings then (st3, .error .fileOpenExcluded)
        else ({ st3 with activeSources := st3.activeSources ++ [ns] }, .ok ns)
    else
      (st2, .ok (st2.activeSources.head (by
        intro hnil
        exact h (by rw [hnil]; rfl))))

/-- `id.substr(0, id.find(":"))`: the host portion of a source id. -/
def hostOf (s : String) : String :=
  s.takeWhile (fun c => c ≠ ':')

/-- `RequestManager::prepareOpaqueString()`: `tried=h1,h2,...` over the
hosts of all active, inactive and disabled sources; empty when there is no
history. -/
def prepareOpaqueString (active inactive : List Source) (disabledStrings : List String) :
    String :=
  let hosts := active.map (fun s => hostOf s.id) ++ inactive.map (fun s => hostOf s.id) ++
    disabledStrings.map hostOf
  if hosts.length = 0 then "" else "tried=" ++ String.intercalate "," hosts

/-- Outcome of one transport-level `file->Open` in the constructor retry
loop: success flag and the `DataServer` / `LastURL` properties read back
from the failed file. -/
structure OpenAttempt where
  ok : Bool
  dataServer : String
  lastUrl : String
deriving Repr, DecidableEq

/-- How the constructor's retry loop ended, with the index of the deciding
attempt and the final `disabledSourceStrings`. -/
inductive CtorOutcome where
  | success (idx : Nat) (disabled : List String)
  | fatalDisabled (idx : Nat) (disabled : List String)
  | fatalSameUrl (idx : Nat) (disabled : List String)
  | exhausted (disabled : List String)
deriving Repr, DecidableEq

/-- The URL used for one constructor open attempt: the file name with the
opaque exclusion string appended via `?` or `&`.  During construction the
active and inactive lists are empty. -/
def ctorAttemptUrl (name : String) (disabled : List String) : String :=
  let opaqueStr := prepareOpaqueString [] [] disabled
  name ++ (if opaqueStr.length ≠ 0 then
    (if name.contains '?' then "&" else "?") ++ opaqueStr else "")

/-- The constructor retry loop (`for (int idx=0; idx<retries; idx++)` with
`retries = 5`), structurally recursive on the remaining attempts. -/
def requestManagerCtorGo (name : String) (attempts : Nat → OpenAttempt) :
    Nat → Nat → List String → CtorOutcome
  | 0, _, disabled => .exhausted disabled
  | rem + 1, idx, disabled =>
    let url := ctorAttemptUrl name disabled
    let a := attempts idx
    if a.ok then .success idx disabled
    else if a.dataServer ∈ disabled then .fatalDisabled idx disabled
    else
      let disabled' := if a.dataServer.length ≠ 0 then insertString a.dataServer disabled
                       else disabled
      if a.lastUrl = url then .fatalSameUrl idx disabled'
      else requestManagerCtorGo name attempts rem (idx + 1) disabled'

/-- `RequestManager::RequestManager` open-retry behaviour (the `attempts`
function gives the outcome of the `idx`-th transport open). -/
def requestManagerCtor (name : String) (attempts : Nat → OpenAttempt) : CtorOutcome :=
  requestManagerCtorGo name attempts 5 0 []

/-- Number of transport open attempts a constructor run performed. -/
def ctorAttemptsMade : CtorOutcome → Nat
  | .success i _ => i + 1
  | .fatalDisabled i _ => i + 1
  | .fatalSameUrl i _ => i + 1
  | .exhausted _ => 5

/-- State of `RequestManager::OpenHandler` relevant to `open()`:
whether `m_file` is non-null (an open attempt is in flight) and the
identities of the current promise and shared future. -/
structure OpenHandlerState where
  filePresent : Bool
  promiseTag : Nat
  sharedFutureTag : Nat
deriving Repr, DecidableEq

/-- `OpenHandler::open()`: if an attempt is in flight, return the existing
shared future; otherwise take a fresh promise (`freshTag`), publish its
shared future, and issue the asynchronous transport `File::Open`
(synchronous failure throws, modelled by `.error`).  The last component
records whether a transport open was issued. -/
def openHandlerOpen (st : OpenHandlerState) (freshTag : Nat) (syncOpenOk : Bool) :
    OpenHandlerState × Except Unit Nat × Bool :=
  if st.filePresent then (st, .ok st.sharedFutureTag, false)
  else
    let st1 : OpenHandlerState := ⟨true, freshTag, freshTag⟩
    if syncOpenOk then (st1, .ok freshTag, true) else (st1, .error (), true)

/-!
Helper lemmas.
-/

theorem timeDiffMS_self (t : Timespec) : timeDiffMS t t = 0 := by
  simp [timeDiffMS]

theorem eligibleShort_fresh_downgrade (now : Timespec) (s : Source) :
    eligibleShort now { s with lastDowngrade := now } = false := by
  simp [eligibleShort, timeDiffMS_self, XRD_ADAPTOR_SHORT_OPEN_DELAY]

/-!
Claim theorems.
-/

/-- C6, counterexample: with two healthy active sources (qualities 50 and
60, no inactive source), `checkSourcesImpl` at `now = 1000 s` completes
with two active sources but schedules the next check at `1115 s`
(`now + LONG_OPEN_DELAY - SHORT_OPEN_DELAY`), not at `1120 s`
(`now + LONG_OPEN_DELAY`) as the claim states. -/
theorem checkSourcesImpl_long_delay_counterexample :
    (checkSourcesImpl
        ⟨[⟨"a:1094", 50, ⟨0, 0⟩, 1⟩, ⟨"c:1094", 60, ⟨0, 0⟩, 3⟩], [], [], [],
          ⟨900, 0⟩, ⟨950, 0⟩, false⟩
        ⟨1000, 0⟩ 50).1.activeSources.length = 2 ∧
    (checkSourcesImpl
        ⟨[⟨"a:1094", 50, ⟨0, 0⟩, 1⟩, ⟨"c:1094", 60, ⟨0, 0⟩, 3⟩], [], [], [],
          ⟨900, 0⟩, ⟨950, 0⟩, false⟩
        ⟨1000, 0⟩ 50).1.nextActiveSourceCheck.sec ≠ 1000 + 120 := by
  decide

/-- C6 (amended): `checkSourcesImpl` schedules the next health check at
`now + (LONG_OPEN_DELAY - SHORT_OPEN_DELAY) = now + 115 s` when it
completes with two active sources, and at `now + SHORT_OPEN_DELAY =
now + 5 s` otherwise. -/
theorem checkSourcesImpl_schedules_next_check (st : RMState) (now : Timespec) (r : Nat) :
    (checkSourcesImpl st now r).1.nextActiveSourceCheck =
      ⟨now.sec + (if (checkSourcesImpl st now r).1.activeSources.length = 2 then 115 else 5),
        now.nsec⟩ := by
  show ({ (checkSourcesImplCore st now r).1 with nextActiveSourceCheck := _ } : RMState).nextActiveSourceCheck = _
  simp only [checkSourcesImpl, RMState.mk.injEq]
  split <;>
    simp_all [XRD_ADAPTOR_LONG_OPEN_DELAY, XRD_ADAPTOR_SHORT_OPEN_DELAY]

/-- C7, counterexample: a `requestFailure` with `errInvalidResponse` for
source `a:1094` (active, not yet disabled) throws `FileReadError` but
leaves the state untouched: afterwards `"a:1094"` is not in
`disabledSourceStrings`, contradicting the claim that the failing source's
id is in the disabled set. -/
theorem requestFailure_invalid_response_counterexample :
    (requestFailure
        ⟨[⟨"a:1094", 50, ⟨0, 0⟩, 1⟩, ⟨"c:1094", 60, ⟨0, 0⟩, 3⟩], [], [], [],
          ⟨900, 0⟩, ⟨950, 0⟩, false⟩
        ⟨1000, 0⟩ ⟨"a:1094", 50, ⟨0, 0⟩, 1⟩ StatusCode.errInvalidResponse
        OpenOutcome.timeout).2 = Except.error RFError.fileReadError ∧
    "a:1094" ∉ (requestFailure
        ⟨[⟨"a:1094", 50, ⟨0, 0⟩, 1⟩, ⟨"c:1094", 60, ⟨0, 0⟩, 3⟩], [], [], [],
          ⟨900, 0⟩, ⟨950, 0⟩, false⟩
        ⟨1000, 0⟩ ⟨"a:1094", 50, ⟨0, 0⟩, 1⟩ StatusCode.errInvalidResponse
        OpenOutcome.timeout).1.disabledSourceStrings :=
  ⟨rfl, by decide⟩

/-- C7 (amended): on `errInvalidResponse`, `requestFailure` immediately
propagates `FileReadError`; the request is not re-dispatched and the
manager state is left completely unchanged (in particular the failing
source's id is added to no collection: it is in the disabled set only if
it already was). -/
theorem requestFailure_invalid_response (st : RMState) (now : Timespec) (source_ptr : Source)
    (openOutcome : OpenOutcome) :
    requestFailure st now source_ptr StatusCode.errInvalidResponse openOutcome =
      (st, Except.error RFError.fileReadError) := by
  rfl

/-- C9: `OpenHandler::open` is idempotent while an attempt is pending.  If
`m_file` is set (an open is in flight) the call returns the stored shared
future, leaves the state (hence the promise) unchanged and issues no
transport `File::Open`; and the call that starts an open publishes exactly
the shared future that it returns, so a subsequent call returns the same
future as the call that started the in-flight open. -/
theorem openHandler_open_idempotent (st : OpenHandlerState) (freshTag : Nat)
    (syncOpenOk : Bool) :
    (st.filePresent = true →
      openHandlerOpen st freshTag syncOpenOk = (st, Except.ok st.sharedFutureTag, false)) ∧
    (∀ freshTag2 syncOpenOk2, st.filePresent = false → syncOpenOk = true →
      (openHandlerOpen st freshTag syncOpenOk).2.1 = Except.ok freshTag ∧
      (openHandlerOpen st freshTag syncOpenOk).2.2 = true ∧
      openHandlerOpen (openHandlerOpen st freshTag syncOpenOk).1 freshTag2 syncOpenOk2 =
        ((openHandlerOpen st freshTag syncOpenOk).1, Except.ok freshTag, false)) := by
  constructor
  · intro h
    simp [openHandlerOpen, h]
  · intro t2 ok2 h hok
    simp [openHandlerOpen, h, hok]

/-- C9, witness: instantiation of `openHandler_open_idempotent` at a
concrete in-flight state. -/
theorem openHandler_open_idempotent_witness :
    openHandlerOpen ⟨true, 7, 7⟩ 9 true = (⟨true, 7, 7⟩, Except.ok 7, false) :=
  (openHandler_open_idempotent ⟨true, 7, 7⟩ 9 true).1 rfl

/-- C3, counterexample: with `"d:1094"` in `disabledSourceStrings` and no
active or inactive source, `handleOpen` with an OK status and a freshly
opened source whose id is `"d:1094"` pushes that source into
`activeSources`: `handleOpen` checks active and inactive ids but never
consults `disabledSourceStrings`. -/
theorem handleOpen_pushes_disabled_id_counterexample :
    "d:1094" ∈ (⟨[], [], [], ["d:1094"], ⟨900, 0⟩, ⟨950, 0⟩, false⟩ : RMState).disabledSourceStrings ∧
    (handleOpen ⟨[], [], [], ["d:1094"], ⟨900, 0⟩, ⟨950, 0⟩, false⟩ true
        ⟨"d:1094", 0, ⟨0, 0⟩, 9⟩).activeSources.map Source.id = ["d:1094"] := by
  decide

/-- C3 (amended): `requestFailure` never installs a source with a disabled
id into `activeSources` (every source active after a non-throwing run was
already active, or its id is not in the final `disabledSourceStrings`);
`handleOpen`, by contrast, only guards against ids that are already active
or inactive, so any source it pushes merely satisfies that weaker check —
it does not consult `disabledSourceStrings`. -/
theorem requestFailure_never_installs_disabled_id (st : RMState) (now : Timespec)
    (source_ptr : Source) (code : StatusCode) (openOutcome : OpenOutcome) :
    (∀ st' tgt, requestFailure st now source_ptr code openOutcome = (st', Except.ok tgt) →
      ∀ s ∈ st'.activeSources, s ∈ st.activeSources ∨ s.id ∉ st'.disabledSourceStrings) ∧
    (∀ statusOk source s, s ∈ (handleOpen st statusOk source).activeSources →
      s ∈ st.activeSources ∨
        (s = source ∧ st.activeSources.any (fun t => t.id = source.id) = false ∧
          st.inactiveSources.any (fun t => t.id = source.id) = false)) := by
  constructor
  · intro st' tgt heq s hs
    by_cases hcode : code = StatusCode.errInvalidResponse
    · simp [requestFailure, hcode] at heq
    · rw [requestFailure, if_neg hcode] at heq
      revert heq
      have hsub : ∀ act : List Source,
          (match act with
            | [] => act
            | s0 :: rest =>
              if s0.tag = source_ptr.tag then rest
              else
                match rest with
                | [] => act
                | s1 :: rest2 => if s1.tag = source_ptr.tag then s0 :: rest2 else act) ⊆ act := by
        intro act
        match act with
        | [] => simp
        | [s0] => dsimp; split <;> simp [List.subset_def]
        | s0 :: s1 :: rest2 =>
          dsimp
          split
          · exact fun x hx => List.mem_cons_of_mem _ hx
          · split
            · intro x hx
              simp only [List.mem_cons] at hx ⊢
              tauto
            · exact fun x hx => hx
      dsimp only
      split
      · -- activeSources became empty: wait on the recovery open
        cases openOutcome with
        | timeout => intro heq; simp at heq
        | failed => intro heq; simp at heq
        | opened ns =>
          dsimp only
          split
          · intro heq; simp at heq
          · rename_i hnotdis
            intro heq
            rw [Prod.mk.injEq] at heq
            obtain ⟨hst, _⟩ := heq
            rw [← hst] at hs
            simp only [List.mem_append, List.mem_singleton] at hs
            rcases hs with hs | hs
            · exact Or.inl (hsub _ hs)
            · subst hs
              rw [← hst]
              exact Or.inr hnotdis
      · intro heq
        rw [Prod.mk.injEq] at heq
        obtain ⟨hst, _⟩ := heq
        rw [← hst] at hs
        exact Or.inl (hsub _ hs)
  · intro statusOk source s hs
    by_cases hok : statusOk = true
    · subst hok
      rw [handleOpen] at hs
      dsimp only at hs
      by_cases h1 : st.activeSources.any (fun t => t.id = source.id) = true
      · rw [if_pos h1] at hs
        exact Or.inl hs
      · rw [if_neg h1] at hs
        by_cases h2 : st.inactiveSources.any (fun t => t.id = source.id) = true
        · rw [if_pos h2] at hs
          exact Or.inl hs
        · rw [if_neg h2] at hs
          by_cases h3 : st.activeSources.length < 2
          · rw [if_pos h3] at hs
            rcases List.mem_append.1 hs with hs | hs
            · exact Or.inl hs
            · have hs' := List.mem_singleton.1 hs
              exact Or.inr ⟨hs', Bool.eq_false_iff.mpr h1, Bool.eq_false_iff.mpr h2⟩
          · rw [if_neg h3] at hs
            exact Or.inl hs
    · rw [handleOpen] at hs
      rw [Bool.not_eq_true] at hok
      rw [hok] at hs
      simp only [Bool.false_eq_true, if_false] at hs
      exact Or.inl hs

/-- C3 (amended), witness: the `requestFailure` part applied to a concrete
recovery run (failing source `a:1094`, recovery open yields fresh source
`n:1094`): afterwards the sole active source either was active before or
carries a non-disabled id. -/
theorem requestFailure_never_installs_disabled_id_witness :
    ∀ s ∈ (requestFailure ⟨[⟨"a:1094", 50, ⟨0, 0⟩, 1⟩], [], [], [], ⟨900, 0⟩, ⟨950, 0⟩, false⟩
        ⟨1000, 0⟩ ⟨"a:1094", 50, ⟨0, 0⟩, 1⟩ StatusCode.otherError
        (OpenOutcome.opened ⟨"n:1094", 0, ⟨0, 0⟩, 5⟩)).1.activeSources,
      s ∈ ([⟨"a:1094", 50, ⟨0, 0⟩, 1⟩] : List Source) ∨
        s.id ∉ (requestFailure ⟨[⟨"a:1094", 50, ⟨0, 0⟩, 1⟩], [], [], [], ⟨900, 0⟩, ⟨950, 0⟩, false⟩
          ⟨1000, 0⟩ ⟨"a:1094", 50, ⟨0, 0⟩, 1⟩ StatusCode.otherError
          (OpenOutcome.opened ⟨"n:1094", 0, ⟨0, 0⟩, 5⟩)).1.disabledSourceStrings := by
  intro s hs
  exact (requestFailure_never_installs_disabled_id
    ⟨[⟨"a:1094", 50, ⟨0, 0⟩, 1⟩], [], [], [], ⟨900, 0⟩, ⟨950, 0⟩, false⟩ ⟨1000, 0⟩
    ⟨"a:1094", 50, ⟨0, 0⟩, 1⟩ StatusCode.otherError
    (OpenOutcome.opened ⟨"n:1094", 0, ⟨0, 0⟩, 5⟩)).1 _ _ (by rfl) s hs

/-- `compareSources` with out-of-range indices is a no-op. -/
theorem compareSources_short (st : RMState) (now : Timespec) (a b : Nat)
    (h : st.activeSources.length < max a b + 1) :
    compareSources st now a b = (false, st) := by
  rw [compareSources, dif_pos h]

/-- `compareSources(now, 0, 1)` on a two-element active list whose first
source satisfies the demotion condition moves that source (stamped with
`lastDowngrade = now`) to the back of `inactiveSources`. -/
theorem compareSources_demotes_first (st : RMState) (now : Timespec) (a0 a1 : Source)
    (hact : st.activeSources = [a0, a1])
    (hdem : 5130 < a0.quality ∨ (260 < a0.quality ∧ a1.quality * 4 < a0.quality)) :
    compareSources st now 0 1 = (decide (a0.lastDowngrade.sec ≠ 0),
      { st with
        inactiveSources := st.inactiveSources ++ [{ a0 with lastDowngrade := now }],
        activeSources := [a1] }) := by
  obtain ⟨act, inact, dis, diss, lsc, nasc, tog⟩ := st
  dsimp only at hact
  subst hact
  rw [compareSources]
  rw [dif_neg (by simp)]
  dsimp only [List.get]
  rw [if_pos hdem]
  rfl

/-- C5, counterexample (spec scenario S3): with `active = [A (q=50)]` and
`inactive = [B (q=10, lastDowngrade = now - 10 s)]` — B eligible for
promotion — `checkSourcesImpl` leaves `activeSources = [A]`: with only one
active source at entry the promotion branch is never reached, so duplex is
not restored (the claim expects `active = [A, B]`). -/
theorem checkSourcesImpl_no_promotion_counterexample :
    eligibleShort ⟨1000, 0⟩ ⟨"b:1094", 10, ⟨990, 0⟩, 2⟩ = true ∧
    (checkSourcesImpl
        ⟨[⟨"a:1094", 50, ⟨0, 0⟩, 1⟩], [⟨"b:1094", 10, ⟨990, 0⟩, 2⟩], [], [],
          ⟨900, 0⟩, ⟨950, 0⟩, false⟩
        ⟨1000, 0⟩ 50).1.activeSources = [⟨"a:1094", 50, ⟨0, 0⟩, 1⟩] := by
  decide

/-- C5 (amended): the promotion of the best eligible inactive source back
to duplex happens when `checkSourcesImpl` *enters with two active sources*
and the pairwise comparison demotes the first one: then the best eligible
inactive source (cool-down `timeDiffMS(now, lastDowngrade) > 4000 ms`) is
promoted unconditionally, and afterwards both the surviving source and the
promoted source are active.  (When only one source is active at entry, the
whole comparison/promotion block is skipped and only an asynchronous open
is requested.) -/
theorem checkSourcesImpl_promotes_after_demotion (st : RMState) (now : Timespec) (r : Nat)
    (a0 a1 best : Source)
    (hact : st.activeSources = [a0, a1])
    (hdem : 5130 < a0.quality ∨ (260 < a0.quality ∧ a1.quality * 4 < a0.quality))
    (hbest : firstMinQ (st.inactiveSources.filter (eligibleShort now)) = some best) :
    (checkSourcesImpl st now r).1.activeSources = [a1, best] := by
  have hlen : ¬ st.activeSources.length ≤ 1 := by rw [hact]; simp
  have h1 := compareSources_demotes_first st now a0 a1 hact hdem
  rw [checkSourcesImpl]
  dsimp only
  rw [checkSourcesImplCore]
  dsimp only
  rw [if_neg hlen, h1]
  dsimp only
  rw [compareSources_short _ _ 1 0 (by simp)]
  dsimp only
  rw [List.filter_append]
  simp only [List.filter_cons, List.filter_nil, eligibleShort_fresh_downgrade,
    Bool.false_eq_true, if_false, List.append_nil]
  rw [hbest]
  dsimp only
  rw [if_pos (show ([a1] : List Source).length = 1 from rfl)]
  dsimp only
  rw [apply_ite RMState.activeSources]
  dsimp only
  rw [ite_self]
  rfl

/-- C5 (amended), witness: spec scenario S4 instantiated —
`active = [A (q=300), C (q=60)]`, `inactive = [D (q=10, eligible)]`; A is
demoted and D promoted, leaving `active = [C, D]`. -/
theorem checkSourcesImpl_promotes_after_demotion_witness :
    (checkSourcesImpl
        ⟨[⟨"a:1094", 300, ⟨0, 0⟩, 1⟩, ⟨"c:1094", 60, ⟨0, 0⟩, 3⟩],
          [⟨"d:1094", 10, ⟨990, 0⟩, 4⟩], [], [], ⟨900, 0⟩, ⟨950, 0⟩, false⟩
        ⟨1000, 0⟩ 50).1.activeSources =
      [⟨"c:1094", 60, ⟨0, 0⟩, 3⟩, ⟨"d:1094", 10, ⟨990, 0⟩, 4⟩] :=
  checkSourcesImpl_promotes_after_demotion _ ⟨1000, 0⟩ 50
    ⟨"a:1094", 300, ⟨0, 0⟩, 1⟩ ⟨"c:1094", 60, ⟨0, 0⟩, 3⟩ ⟨"d:1094", 10, ⟨990, 0⟩, 4⟩
    rfl (by decide) (by decide)

/-- The constructor loop performs at most `idx + rem` attempts (counting
from attempt `idx` with `rem` iterations left), and never more than 5. -/
theorem ctorAttemptsMade_go_le (name : String) (attempts : Nat → OpenAttempt) :
    ∀ rem idx disabled,
      ctorAttemptsMade (requestManagerCtorGo name attempts rem idx disabled) ≤
        max 5 (idx + rem) := by
  intro rem
  induction rem with
  | zero =>
    intro idx disabled
    simp [requestManagerCtorGo, ctorAttemptsMade]
  | succ n ih =>
    intro idx disabled
    rw [requestManagerCtorGo]
    dsimp only
    split
    · simp only [ctorAttemptsMade]; omega
    · split
      · simp only [ctorAttemptsMade]; omega
      · split
        · simp only [ctorAttemptsMade]; omega
        · have := ih (idx + 1)
            (if (attempts idx).dataServer.length ≠ 0 then
              insertString (attempts idx).dataServer disabled else disabled)
          omega

/-- C8, counterexample: attempt 0 fails with an *empty* `DataServer`
property and a different `LastURL`; the constructor retries (attempt 1 is
examined and succeeds) but `disabledSourceStrings` stays empty — the
failed attempt's data server was *not* added, because the insertion is
guarded by `dataServer.size()`.  This contradicts the claim's "on any
other failure it adds the DataServer to disabledSourceStrings and
retries". -/
theorem requestManagerCtor_empty_dataserver_counterexample :
    requestManagerCtor "root://x/f"
        (fun i => if i = 0 then ⟨false, "", "root://other/f"⟩ else ⟨true, "", ""⟩) =
      CtorOutcome.success 1 [] := by
  rfl

/-- C8 (amended): the constructor makes at most 5 open attempts; a failed
attempt whose `DataServer` is already in `disabledSourceStrings` throws
`FileOpenError` with no further retry; a failed attempt whose `LastURL`
equals the URL that was requested throws with no further retry (after
recording a non-empty `DataServer`); any other failure retries after
adding the `DataServer` to `disabledSourceStrings` *when it is non-empty*
(an empty `DataServer` is not recorded); and when all 5 attempts fail the
constructor throws `FileOpenError`. -/
theorem requestManagerCtor_retry_behaviour (name : String) (attempts : Nat → OpenAttempt) :
    ctorAttemptsMade (requestManagerCtor name attempts) ≤ 5 ∧
    (∀ rem idx disabled, (attempts idx).ok = false →
      (attempts idx).dataServer ∈ disabled →
      requestManagerCtorGo name attempts (rem + 1) idx disabled =
        CtorOutcome.fatalDisabled idx disabled) ∧
    (∀ rem idx disabled, (attempts idx).ok = false →
      (attempts idx).dataServer ∉ disabled →
      (attempts idx).lastUrl = ctorAttemptUrl name disabled →
      requestManagerCtorGo name attempts (rem + 1) idx disabled =
        CtorOutcome.fatalSameUrl idx
          (if (attempts idx).dataServer.length ≠ 0 then
            insertString (attempts idx).dataServer disabled else disabled)) ∧
    (∀ rem idx disabled, (attempts idx).ok = false →
      (attempts idx).dataServer ∉ disabled →
      (attempts idx).lastUrl ≠ ctorAttemptUrl name disabled →
      requestManagerCtorGo name attempts (rem + 1) idx disabled =
        requestManagerCtorGo name attempts rem (idx + 1)
          (if (attempts idx).dataServer.length ≠ 0 then
            insertString (attempts idx).dataServer disabled else disabled)) ∧
    (∀ idx disabled, requestManagerCtorGo name attempts 0 idx disabled =
      CtorOutcome.exhausted disabled) := by
  refine ⟨?_, ?_, ?_, ?_, ?_⟩
  · have h := ctorAttemptsMade_go_le name attempts 5 0 []
    simpa [requestManagerCtor] using h
  · intro rem idx disabled hok hmem
    rw [requestManagerCtorGo]
    dsimp only
    rw [if_neg (by simp [hok]), if_pos hmem]
  · intro rem idx disabled hok hmem hurl
    rw [requestManagerCtorGo]
    dsimp only
    rw [if_neg (by simp [hok]), if_neg hmem, if_pos hurl]
  · intro rem idx disabled hok hmem hurl
    rw [requestManagerCtorGo]
    dsimp only
    rw [if_neg (by simp [hok]), if_neg hmem, if_neg hurl]
  · intro idx disabled
    rw [requestManagerCtorGo]

/-- C8 (amended), witness: a run whose five attempts all fail on distinct
data servers exhausts the retry budget and throws `FileOpenError` with all
five servers recorded. -/
theorem requestManagerCtor_retry_behaviour_witness :
    requestManagerCtor "root://x/f"
        (fun i => ⟨false, "ds" ++ toString i ++ ":1094", "root://other/f"⟩) =
      CtorOutcome.exhausted
        ["ds0:1094", "ds1:1094", "ds2:1094", "ds3:1094", "ds4:1094"] ∧
    ctorAttemptsMade (requestManagerCtor "root://x/f"
        (fun i => ⟨false, "ds" ++ toString i ++ ":1094", "root://other/f"⟩)) ≤ 5 := by
  constructor
  · rfl
  · exact (requestManagerCtor_retry_behaviour "root://x/f"
      (fun i => ⟨false, "ds" ++ toString i ++ ":1094", "root://other/f"⟩)).1

/-- Once the front consume loop has bound `output.back()` of an empty
vector, the instrumentation flag stays set. -/
theorem consumeChunkFrontGo_flag_mono (fuel : Nat) :
    ∀ front input output chunksize,
      (consumeChunkFrontGo fuel front input output chunksize true).emptyBackBind = true := by
  induction fuel with
  | zero => intro front input output chunksize; rfl
  | succ n ih =>
    intro front input output chunksize
    rw [consumeChunkFrontGo]
    dsimp only
    split
    · simp only [Bool.true_or]
      split
      · split
        · split
          · split
            · exact ih _ _ _ _
            · exact ih _ _ _ _
          · exact ih _ _ _ _
        · exact ih _ _ _ _
      · split
        · exact ih _ _ _ _
        · exact ih _ _ _ _
    · rfl

/-- Once the back consume loop has bound `output.back()` of an empty
vector, the instrumentation flag stays set. -/
theorem consumeChunkBackGo_flag_mono (fuel : Nat) :
    ∀ front input output chunksize,
      (consumeChunkBackGo fuel front input output chunksize true).emptyBackBind = true := by
  induction fuel with
  | zero => intro front input output chunksize; rfl
  | succ n ih =>
    intro front input output chunksize
    rw [consumeChunkBackGo]
    dsimp only
    split
    · split
      · rfl
      · simp only [Bool.true_or]
        split
        · split
          · split
            · split
              · exact ih _ _ _ _
              · exact ih _ _ _ _
            · exact ih _ _ _ _
          · exact ih _ _ _ _
        · split
          · exact ih _ _ _ _
          · exact ih _ _ _ _
    · rfl

/-- As soon as the front consume loop executes one iteration with an empty
output vector, `output.back()` is bound on an empty vector and the flag is
set. -/
theorem consumeChunkFront_binds_empty_back (front : Nat) (input : List IOPosBuffer)
    (chunksize : Nat) (hc : 0 < chunksize) (hf : front < input.length) :
    (consumeChunkFront front input [] chunksize false).emptyBackBind = true := by
  rw [consumeChunkFront]
  have : chunksize + input.length + 1 = (chunksize + input.length) + 1 := rfl
  rw [this, consumeChunkFrontGo]
  dsimp only
  rw [dif_pos ⟨hc, hf⟩]
  simp only [List.isEmpty_nil, Bool.false_or]
  split
  · split
    · split
      · split
        · exact consumeChunkFrontGo_flag_mono _ _ _ _ _
        · exact consumeChunkFrontGo_flag_mono _ _ _ _ _
      · exact consumeChunkFrontGo_flag_mono _ _ _ _ _
    · exact consumeChunkFrontGo_flag_mono _ _ _ _ _
  · split
    · exact consumeChunkFrontGo_flag_mono _ _ _ _ _
    · exact consumeChunkFrontGo_flag_mono _ _ _ _ _

/-- As soon as the back consume loop executes one iteration with an empty
output vector, `output.back()` is bound on an empty vector and the flag is
set. -/
theorem consumeChunkBack_binds_empty_back (front : Nat) (input : List IOPosBuffer)
    (chunksize : Nat) (hc : 0 < chunksize) (hf : front < input.length) :
    (consumeChunkBack front input [] chunksize false).emptyBackBind = true := by
  rw [consumeChunkBack]
  have : chunksize + input.length + 1 = (chunksize + input.length) + 1 := rfl
  rw [this, consumeChunkBackGo]
  dsimp only
  rw [dif_pos ⟨hc, hf⟩]
  have hne : input ≠ [] := by
    intro h
    rw [h] at hf
    exact Nat.not_lt_zero _ hf
  obtain ⟨io, hio⟩ := List.getLast?_isSome.2 hne |> Option.isSome_iff_exists.1
  rw [hio]
  dsimp only
  simp only [List.isEmpty_nil, Bool.false_or]
  split
  · split
    · split
      · split
        · exact consumeChunkBackGo_flag_mono _ _ _ _ _
        · exact consumeChunkBackGo_flag_mono _ _ _ _ _
      · exact consumeChunkBackGo_flag_mono _ _ _ _ _
    · exact consumeChunkBackGo_flag_mono _ _ _ _ _
  · split
    · exact consumeChunkBackGo_flag_mono _ _ _ _ _
    · exact consumeChunkBackGo_flag_mono _ _ _ _ _

/-- The outer split loop preserves a set front-side flag into its result. -/
theorem splitLoopGo_flag1_mono (fuel : Nat) :
    ∀ front tmp req1 req2 e2 chunk1 chunk2 out,
      splitLoopGo fuel front tmp req1 req2 true e2 chunk1 chunk2 = some out →
      out.2.2.emptyBind1 = true := by
  induction fuel with
  | zero => intro front tmp req1 req2 e2 c1 c2 out h; exact absurd h (by simp [splitLoopGo])
  | succ n ih =>
    intro front tmp req1 req2 e2 c1 c2 out h
    rw [splitLoopGo] at h
    dsimp only at h
    by_cases hf : front < tmp.length
    · rw [if_pos hf] at h
      have hm := consumeChunkFrontGo_flag_mono (c1 + tmp.length + 1) front tmp req1 c1
      exact ih _ _ _ _ _ _ _ _ (by rw [← hm]; exact h)
    · rw [if_neg hf] at h
      rw [Option.some.injEq] at h
      rw [← h]

/-- C10, counterexample: the `output.back()`-of-empty binding does *not*
happen on every split.  With `chunk1 = 0` (source 2 has quality 0) the
front consume loop never runs, so `req1.back()` is never bound
(`emptyBind1 = false`); and when the front pass exhausts the working list
the back loop never runs, so `req2.back()` is never bound
(`emptyBind2 = false`). -/
theorem splitClientRequest_no_empty_bind_counterexample :
    splitClientRequest 0 1 [⟨0, 0, 1⟩] =
      some ⟨[], [⟨0, 0, 1⟩], false, true⟩ ∧
    splitClientRequest 2 2 [⟨0, 0, 1⟩, ⟨5, 5, 1⟩] =
      some ⟨[⟨0, 0, 1⟩, ⟨5, 5, 1⟩], [], true, false⟩ := by
  constructor <;> rfl

/-- C10 (amended): both consume loops bind `IOPosBuffer &outio =
output.back();` at the top of each executed iteration, before the
`output.size()` guard.  Hence whenever a loop executes at least one
iteration with its output list still empty, `back()` of an empty vector is
bound: for every split of a non-empty list with `chunk1 > 0` the front
loop does so on its first iteration (`emptyBind1`), and the back loop does
so whenever it runs at all with `req2` still empty; in the total embedding
`getLast?` of the empty output is `none`. -/
theorem splitClientRequest_binds_back_of_empty :
    (∀ iolist chunk1 chunk2 res, iolist ≠ [] → 0 < chunk1 →
      splitClientRequest chunk1 chunk2 iolist = some res → res.emptyBind1 = true) ∧
    (∀ front input chunksize, 0 < chunksize → front < input.length →
      (consumeChunkBack front input [] chunksize false).emptyBackBind = true) ∧
    ([] : List IOPosBuffer).getLast? = none := by
  refine ⟨?_, ?_, rfl⟩
  · intro iolist c1 c2 res hne hc hsplit
    rw [splitClientRequest] at hsplit
    rw [if_neg (by simpa using hne)] at hsplit
    have hlen : 0 < iolist.length := List.length_pos.2 hne
    revert hsplit
    cases hloop : splitLoopGo (sumSize iolist + iolist.length + 1) 0 iolist [] [] false false
        c1 c2 with
    | none => intro hsplit; exact absurd hsplit (by simp)
    | some out =>
      intro hsplit
      rw [Option.some.injEq] at hsplit
      have hflag : out.2.2.emptyBind1 = true := by
        rw [splitLoopGo] at hloop
        dsimp only at hloop
        rw [if_pos hlen] at hloop
        have h1 := consumeChunkFront_binds_empty_back 0 iolist c1 hc hlen
        rw [h1] at hloop
        exact splitLoopGo_flag1_mono _ _ _ _ _ _ _ _ _ hloop
      rw [← hsplit]
      exact hflag
  · intro front input chunksize hc hf
    exact consumeChunkBack_binds_empty_back front input chunksize hc hf

/-- C10 (amended), witness: instantiation at a split of two one-byte
fragments with both budgets positive — the front consume loop binds
`back()` of the then-empty `req1`. -/
theorem splitClientRequest_binds_back_of_empty_witness :
    (splitClientRequest 2 2 [⟨0, 0, 1⟩, ⟨5, 5, 1⟩]).map SplitResult.emptyBind1 =
      some true := by
  have h := splitClientRequest_binds_back_of_empty.1 [⟨0, 0, 1⟩, ⟨5, 5, 1⟩] 2 2
    ⟨[⟨0, 0, 1⟩, ⟨5, 5, 1⟩], [], true, false⟩ (by simp) (by decide) (by rfl)
  rw [show splitClientRequest 2 2 [⟨0, 0, 1⟩, ⟨5, 5, 1⟩] =
    some ⟨[⟨0, 0, 1⟩, ⟨5, 5, 1⟩], [], true, false⟩ from rfl]
  exact congrArg some h

theorem sumSize_nil : sumSize [] = 0 := rfl

theorem sumSize_cons (a : IOPosBuffer) (l : List IOPosBuffer) :
    sumSize (a :: l) = a.size + sumSize l := by
  simp [sumSize]

theorem sumSize_append (l₁ l₂ : List IOPosBuffer) :
    sumSize (l₁ ++ l₂) = sumSize l₁ + sumSize l₂ := by
  simp [sumSize]

theorem drop_set_self {α : Type} :
    ∀ (l : List α) (n : Nat) (x : α), n < l.length →
      (l.set n x).drop n = x :: l.drop (n + 1)
  | [], n, x, h => absurd h (by simp)
  | a :: t, 0, x, _ => rfl
  | a :: t, n + 1, x, h =>
    drop_set_self t n x (by simpa using h)

theorem drop_succ_set {α : Type} :
    ∀ (l : List α) (n : Nat) (x : α), (l.set n x).drop (n + 1) = l.drop (n + 1)
  | [], _, _ => rfl
  | a :: t, 0, x => rfl
  | a :: t, n + 1, x => drop_succ_set t n x

theorem drop_append_of_le {α : Type} :
    ∀ (l₁ l₂ : List α) (n : Nat), n ≤ l₁.length →
      (l₁ ++ l₂).drop n = l₁.drop n ++ l₂
  | _, _, 0, _ => rfl
  | [], l₂, n + 1, h => absurd h (by simp)
  | a :: t, l₂, n + 1, h => drop_append_of_le t l₂ n (by simpa using h)

theorem dropLast_drop_comm {α : Type} (l : List α) (n : Nat) (h : n < l.length) :
    l.dropLast.drop n = (l.drop n).dropLast := by
  rw [List.dropLast_eq_take, List.dropLast_eq_take]
  rw [show l.length - 1 = n + (l.length - 1 - n) by omega]
  rw [← List.take_drop]
  congr 1
  rw [List.length_drop]
  omega

theorem getLast?_drop_eq {α : Type} (l : List α) (n : Nat) (h : n < l.length) :
    (l.drop n).getLast? = l.getLast? := by
  have hne : l.drop n ≠ [] := by
    intro hd
    have := List.length_drop n l
    rw [hd] at this
    simp at this
    omega
  obtain ⟨a, ha⟩ := Option.isSome_iff_exists.1 (List.getLast?_isSome.2 hne)
  conv_rhs => rw [← List.take_append_drop n l]
  rw [List.getLast?_append, ha]
  rfl

theorem sumSize_concat (l : List IOPosBuffer) (x : IOPosBuffer) :
    sumSize (l ++ [x]) = sumSize l + x.size := by
  simp [sumSize]

/-- Shape and byte-conservation facts for the front consume loop: the
working vector keeps its length, the cursor only advances (staying in
range), the output only grows, and the bytes in the live region plus the
bytes in the output are conserved. -/
theorem consumeChunkFrontGo_spec (fuel : Nat) :
    ∀ front input output chunksize eb r,
      consumeChunkFrontGo fuel front input output chunksize eb = r →
      front ≤ input.length →
      r.input.length = input.length ∧ front ≤ r.front ∧ r.front ≤ input.length ∧
      sumSize output ≤ sumSize r.output ∧
      sumSize (r.input.drop r.front) + sumSize r.output =
        sumSize (input.drop front) + sumSize output := by
  induction fuel with
  | zero =>
    intro front input output c eb r hr hf
    rw [consumeChunkFrontGo] at hr
    subst hr
    exact ⟨rfl, Nat.le_refl _, hf, Nat.le_refl _, rfl⟩
  | succ n ih =>
    intro front input output c eb r hr hf
    rw [consumeChunkFrontGo] at hr
    dsimp only at hr
    by_cases hg : 0 < c ∧ front < input.length
    · rw [dif_pos hg] at hr
      have hdrop : input.drop front = input.get ⟨front, hg.2⟩ :: input.drop (front + 1) := by
        rw [List.drop_eq_getElem_cons hg.2]
        rfl
      have e2 : sumSize (input.drop front) =
          (input.get ⟨front, hg.2⟩).size + sumSize (input.drop (front + 1)) := by
        rw [hdrop, sumSize_cons]
      by_cases h1 : c < (input.get ⟨front, hg.2⟩).size
      · rw [if_pos h1] at hr
        have hcomb : ∀ (consumed : Nat) (out' : List IOPosBuffer) (c' : Nat) (eb' : Bool),
            consumeChunkFrontGo n front
              (input.set front ( advanceIO (input.get ⟨front, hg.2⟩) consumed)) out' c' eb' = r →
            0 < consumed → consumed ≤ (input.get ⟨front, hg.2⟩).size →
            sumSize out' = sumSize output + consumed →
            sumSize output ≤ sumSize out' →
            r.input.length = input.length ∧ front ≤ r.front ∧ r.front ≤ input.length ∧
            sumSize output ≤ sumSize r.output ∧
            sumSize (r.input.drop r.front) + sumSize r.output =
              sumSize (input.drop front) + sumSize output := by
          intro consumed out' c' eb' hr' hpos hle hout hmon
          obtain ⟨ihl, ihm, ihr', ihout, ihsum⟩ := ih _ _ _ _ _ _ hr'
            (by rw [List.length_set]; exact hf)
          have e1 : sumSize ((input.set front
              ( advanceIO (input.get ⟨front, hg.2⟩) consumed)).drop front) =
              ((input.get ⟨front, hg.2⟩).size - consumed) + sumSize (input.drop (front + 1)) := by
            rw [drop_set_self _ _ _ hg.2, sumSize_cons]
            rfl
          rw [List.length_set] at ihl ihr'
          refine ⟨ihl, ihm, ihr', le_trans hmon ihout, ?_⟩
          rw [e1, hout] at ihsum
          rw [e2]
          omega
        cases hm : output.getLast? with
        | none =>
          rw [hm] at hr
          dsimp only at hr
          exact hcomb c _ 0 _ hr hg.1 (Nat.le_of_lt h1)
            (by rw [sumSize_concat]) (by rw [sumSize_concat]; omega)
        | some outio =>
          rw [hm] at hr
          dsimp only at hr
          have houtd : output.dropLast ++ [outio] = output :=
            List.dropLast_append_getLast? outio hm
          have e4 : sumSize output = sumSize output.dropLast + outio.size := by
            conv_lhs => rw [← houtd]
            rw [sumSize_concat]
          by_cases h2 : outio.size < XRD_CL_MAX_CHUNK ∧
              outio.offset + (outio.size : Int) = (input.get ⟨front, hg.2⟩).offset
          · rw [if_pos h2] at hr
            by_cases h3 : XRD_CL_MAX_CHUNK < outio.size + c
            · rw [if_pos h3] at hr
              refine hcomb (XRD_CL_MAX_CHUNK - outio.size) _ _ _ hr
                (by omega) (by omega) ?_ ?_
              · rw [sumSize_concat, e4]
                dsimp only
                omega
              · rw [sumSize_concat, e4]
                dsimp only
                omega
            · rw [if_neg h3] at hr
              refine hcomb c _ 0 _ hr hg.1 (Nat.le_of_lt h1) ?_ ?_
              · rw [sumSize_concat, e4]
                dsimp only
                omega
              · rw [sumSize_concat, e4]
                dsimp only
                omega
          · rw [if_neg h2] at hr
            exact hcomb c _ 0 _ hr hg.1 (Nat.le_of_lt h1)
              (by rw [sumSize_concat]) (by rw [sumSize_concat]; omega)
      · rw [if_neg h1] at hr
        by_cases h0 : (input.get ⟨front, hg.2⟩).size = 0
        · rw [if_pos h0] at hr
          obtain ⟨ihl, ihm, ihr', ihout, ihsum⟩ := ih _ _ _ _ _ _ hr hg.2
          refine ⟨ihl, Nat.le_trans (Nat.le_succ front) ihm, ihr', ihout, ?_⟩
          rw [ihsum, e2, h0]
          omega
        · rw [if_neg h0] at hr
          obtain ⟨ihl, ihm, ihr', ihout, ihsum⟩ := ih _ _ _ _ _ _ hr hg.2
          refine ⟨ihl, Nat.le_trans (Nat.le_succ front) ihm, ihr', ?_, ?_⟩
          · rw [sumSize_concat] at ihout
            omega
          · rw [sumSize_concat] at ihsum
            rw [e2]
            omega
    · rw [dif_neg hg] at hr
      subst hr
      exact ⟨rfl, Nat.le_refl _, hf, Nat.le_refl _, rfl⟩

/-- Shape and byte-conservation facts for the back consume loop: the
cursor is untouched, the working vector only shrinks (never below the
cursor), the output only grows, and the bytes in the live region plus the
bytes in the output are conserved. -/
theorem consumeChunkBackGo_spec (fuel : Nat) :
    ∀ front input output chunksize eb r,
      consumeChunkBackGo fuel front input output chunksize eb = r →
      front ≤ input.length →
      r.front = front ∧ front ≤ r.input.length ∧ r.input.length ≤ input.length ∧
      sumSize output ≤ sumSize r.output ∧
      sumSize (r.input.drop front) + sumSize r.output =
        sumSize (input.drop front) + sumSize output := by
  induction fuel with
  | zero =>
    intro front input output c eb r hr hf
    rw [consumeChunkBackGo] at hr
    subst hr
    exact ⟨rfl, hf, Nat.le_refl _, Nat.le_refl _, rfl⟩
  | succ n ih =>
    intro front input output c eb r hr hf
    rw [consumeChunkBackGo] at hr
    dsimp only at hr
    by_cases hg : 0 < c ∧ front < input.length
    · rw [dif_pos hg] at hr
      cases hL : input.getLast? with
      | none =>
        rw [hL] at hr
        dsimp only at hr
        subst hr
        exact ⟨rfl, hf, Nat.le_refl _, Nat.le_refl _, rfl⟩
      | some io =>
        rw [hL] at hr
        dsimp only at hr
        have hlast : (input.drop front).getLast? = some io := by
          rw [getLast?_drop_eq _ _ hg.2, hL]
        have hlived : (input.drop front).dropLast ++ [io] = input.drop front :=
          List.dropLast_append_getLast? io hlast
        have e2 : sumSize (input.drop front) =
            sumSize (input.drop front).dropLast + io.size := by
          conv_lhs => rw [← hlived]
          rw [sumSize_concat]
        have hfd : front ≤ input.dropLast.length := by
          rw [List.length_dropLast]
          omega
        by_cases h1 : c < io.size
        · rw [if_pos h1] at hr
          have hcomb : ∀ (consumed : Nat) (out' : List IOPosBuffer) (c' : Nat) (eb' : Bool),
              consumeChunkBackGo n front (input.dropLast ++ [ advanceIO io consumed])
                out' c' eb' = r →
              0 < consumed → consumed ≤ io.size →
              sumSize out' = sumSize output + consumed →
              sumSize output ≤ sumSize out' →
              r.front = front ∧ front ≤ r.input.length ∧ r.input.length ≤ input.length ∧
              sumSize output ≤ sumSize r.output ∧
              sumSize (r.input.drop front) + sumSize r.output =
                sumSize (input.drop front) + sumSize output := by
            intro consumed out' c' eb' hr' hpos hle hout hmon
            have hlen' : (input.dropLast ++ [ advanceIO io consumed]).length = input.length := by
              rw [List.length_append, List.length_dropLast]
              simp only [List.length_cons, List.length_nil]
              omega
            obtain ⟨ihf, ihm, ihl, ihout, ihsum⟩ := ih _ _ _ _ _ _ hr'
              (by rw [hlen']; exact hf)
            have e1 : sumSize ((input.dropLast ++ [ advanceIO io consumed]).drop front) =
                sumSize (input.drop front).dropLast + (io.size - consumed) := by
              rw [drop_append_of_le _ _ _ hfd, sumSize_concat,
                dropLast_drop_comm _ _ hg.2]
              rfl
            rw [hlen'] at ihl
            refine ⟨ihf, ihm, ihl, le_trans hmon ihout, ?_⟩
            rw [e1, hout] at ihsum
            rw [e2]
            omega
          cases hm : output.getLast? with
          | none =>
            rw [hm] at hr
            dsimp only at hr
            exact hcomb c _ 0 _ hr hg.1 (Nat.le_of_lt h1)
              (by rw [sumSize_concat]) (by rw [sumSize_concat]; omega)
          | some outio =>
            rw [hm] at hr
            dsimp only at hr
            have houtd : output.dropLast ++ [outio] = output :=
              List.dropLast_append_getLast? outio hm
            have e4 : sumSize output = sumSize output.dropLast + outio.size := by
              conv_lhs => rw [← houtd]
              rw [sumSize_concat]
            by_cases h2 : outio.size < XRD_CL_MAX_CHUNK ∧
                outio.offset + (outio.size : Int) = io.offset
            · rw [if_pos h2] at hr
              by_cases h3 : XRD_CL_MAX_CHUNK < outio.size + c
              · rw [if_pos h3] at hr
                refine hcomb (XRD_CL_MAX_CHUNK - outio.size) _ _ _ hr
                  (by omega) (by omega) ?_ ?_
                · rw [sumSize_concat, e4]
                  dsimp only
                  omega
                · rw [sumSize_concat, e4]
                  dsimp only
                  omega
              · rw [if_neg h3] at hr
                refine hcomb c _ 0 _ hr hg.1 (Nat.le_of_lt h1) ?_ ?_
                · rw [sumSize_concat, e4]
                  dsimp only
                  omega
                · rw [sumSize_concat, e4]
                  dsimp only
                  omega
            · rw [if_neg h2] at hr
              exact hcomb c _ 0 _ hr hg.1 (Nat.le_of_lt h1)
                (by rw [sumSize_concat]) (by rw [sumSize_concat]; omega)
        · rw [if_neg h1] at hr
          have hlive' : sumSize (input.dropLast.drop front) =
              sumSize (input.drop front).dropLast := by
            rw [dropLast_drop_comm _ _ hg.2]
          by_cases h0 : io.size = 0
          · rw [if_pos h0] at hr
            obtain ⟨ihf, ihm, ihl, ihout, ihsum⟩ := ih _ _ _ _ _ _ hr hfd
            refine ⟨ihf, ihm, ?_, ihout, ?_⟩
            · rw [List.length_dropLast] at ihl
              omega
            · rw [hlive'] at ihsum
              rw [ihsum, e2, h0]
              omega
          · rw [if_neg h0] at hr
            obtain ⟨ihf, ihm, ihl, ihout, ihsum⟩ := ih _ _ _ _ _ _ hr hfd
            refine ⟨ihf, ihm, ?_, ?_, ?_⟩
            · rw [List.length_dropLast] at ihl
              omega
            · rw [sumSize_concat] at ihout
              omega
            · rw [sumSize_concat] at ihsum
              rw [hlive'] at ihsum
              rw [e2]
              omega
    · rw [dif_neg hg] at hr
      subst hr
      exact ⟨rfl, hf, Nat.le_refl _, Nat.le_refl _, rfl⟩

/-- The front consume loop never increases the termination measure
(live bytes plus live fragment count). -/
theorem consumeChunkFrontGo_meas_le (fuel front : Nat) (input output : List IOPosBuffer)
    (chunksize : Nat) (eb : Bool) (r : ConsumeResult)
    (hr : consumeChunkFrontGo fuel front input output chunksize eb = r)
    (hf : front ≤ input.length) :
    sumSize (r.input.drop r.front) + (r.input.length - r.front) ≤
      sumSize (input.drop front) + (input.length - front) := by
  obtain ⟨hl, hm, hr', hout, hsum⟩ := consumeChunkFrontGo_spec fuel _ _ _ _ _ _ hr hf
  omega

/-- The back consume loop never increases the termination measure. -/
theorem consumeChunkBackGo_meas_le (fuel front : Nat) (input output : List IOPosBuffer)
    (chunksize : Nat) (eb : Bool) (r : ConsumeResult)
    (hr : consumeChunkBackGo fuel front input output chunksize eb = r)
    (hf : front ≤ input.length) :
    sumSize (r.input.drop front) + (r.input.length - front) ≤
      sumSize (input.drop front) + (input.length - front) := by
  obtain ⟨hfr, hm, hl, hout, hsum⟩ := consumeChunkBackGo_spec fuel _ _ _ _ _ _ hr hf
  omega

/-- A call with an exhausted chunk budget is a no-op (front). -/
theorem consumeChunkFront_zero (front : Nat) (input output : List IOPosBuffer) (eb : Bool) :
    consumeChunkFront front input output 0 eb = ⟨front, input, output, 0, eb⟩ := by
  rw [consumeChunkFront, consumeChunkFrontGo]
  rw [dif_neg (by simp)]

/-- A call with an exhausted chunk budget is a no-op (back). -/
theorem consumeChunkBack_zero (front : Nat) (input output : List IOPosBuffer) (eb : Bool) :
    consumeChunkBack front input output 0 eb = ⟨front, input, output, 0, eb⟩ := by
  rw [consumeChunkBack, consumeChunkBackGo]
  rw [dif_neg (by simp)]

/-- With a positive chunk budget and a non-empty live region, one call to
`consumeChunkFront` strictly decreases the termination measure. -/
theorem consumeChunkFront_meas_lt (front : Nat) (input output : List IOPosBuffer)
    (chunksize : Nat) (eb : Bool) (r : ConsumeResult)
    (hr : consumeChunkFront front input output chunksize eb = r)
    (hc : 0 < chunksize) (hfl : front < input.length) :
    sumSize (r.input.drop r.front) + (r.input.length - r.front) <
      sumSize (input.drop front) + (input.length - front) := by
  rw [consumeChunkFront, consumeChunkFrontGo] at hr
  dsimp only at hr
  rw [dif_pos ⟨hc, hfl⟩] at hr
  have e2 : sumSize (input.drop front) =
      (input.get ⟨front, hfl⟩).size + sumSize (input.drop (front + 1)) := by
    rw [List.drop_eq_getElem_cons hfl, sumSize_cons]
    rfl
  by_cases h1 : chunksize < (input.get ⟨front, hfl⟩).size
  · rw [if_pos h1] at hr
    have hcomb : ∀ (consumed : Nat) (out' : List IOPosBuffer) (c' : Nat) (eb' : Bool),
        consumeChunkFrontGo (chunksize + input.length) front
          (input.set front ( advanceIO (input.get ⟨front, hfl⟩) consumed)) out' c' eb' = r →
        0 < consumed → consumed ≤ (input.get ⟨front, hfl⟩).size →
        sumSize (r.input.drop r.front) + (r.input.length - r.front) <
          sumSize (input.drop front) + (input.length - front) := by
      intro consumed out' c' eb' hr' hpos hle
      have hmeas := consumeChunkFrontGo_meas_le _ _ _ _ _ _ _ hr'
        (by rw [List.length_set]; exact Nat.le_of_lt hfl)
      have e1 : sumSize ((input.set front
          ( advanceIO (input.get ⟨front, hfl⟩) consumed)).drop front) =
          ((input.get ⟨front, hfl⟩).size - consumed) + sumSize (input.drop (front + 1)) := by
        rw [drop_set_self _ _ _ hfl, sumSize_cons]
        rfl
      rw [e1, List.length_set] at hmeas
      rw [e2]
      omega
    cases hm : output.getLast? with
    | none =>
      rw [hm] at hr
      dsimp only at hr
      exact hcomb chunksize _ 0 _ hr hc (Nat.le_of_lt h1)
    | some outio =>
      rw [hm] at hr
      dsimp only at hr
      by_cases h2 : outio.size < XRD_CL_MAX_CHUNK ∧
          outio.offset + (outio.size : Int) = (input.get ⟨front, hfl⟩).offset
      · rw [if_pos h2] at hr
        by_cases h3 : XRD_CL_MAX_CHUNK < outio.size + chunksize
        · rw [if_pos h3] at hr
          exact hcomb (XRD_CL_MAX_CHUNK - outio.size) _ _ _ hr (by omega) (by omega)
        · rw [if_neg h3] at hr
          exact hcomb chunksize _ 0 _ hr hc (Nat.le_of_lt h1)
      · rw [if_neg h2] at hr
        exact hcomb chunksize _ 0 _ hr hc (Nat.le_of_lt h1)
  · rw [if_neg h1] at hr
    by_cases h0 : (input.get ⟨front, hfl⟩).size = 0
    · rw [if_pos h0] at hr
      have hmeas := consumeChunkFrontGo_meas_le _ _ _ _ _ _ _ hr hfl
      rw [e2, h0]
      omega
    · rw [if_neg h0] at hr
      have hmeas := consumeChunkFrontGo_meas_le _ _ _ _ _ _ _ hr hfl
      rw [e2]
      omega

/-- With a positive chunk budget and a non-empty live region, one call to
`consumeChunkBack` strictly decreases the termination measure. -/
theorem consumeChunkBack_meas_lt (front : Nat) (input output : List IOPosBuffer)
    (chunksize : Nat) (eb : Bool) (r : ConsumeResult)
    (hr : consumeChunkBack front input output chunksize eb = r)
    (hc : 0 < chunksize) (hfl : front < input.length) :
    sumSize (r.input.drop front) + (r.input.length - front) <
      sumSize (input.drop front) + (input.length - front) := by
  rw [consumeChunkBack, consumeChunkBackGo] at hr
  dsimp only at hr
  rw [dif_pos ⟨hc, hfl⟩] at hr
  have hne : input ≠ [] := by
    intro h
    rw [h] at hfl
    exact Nat.not_lt_zero _ hfl
  obtain ⟨io, hL⟩ := Option.isSome_iff_exists.1 (List.getLast?_isSome.2 hne)
  rw [hL] at hr
  dsimp only at hr
  have hlast : (input.drop front).getLast? = some io := by
    rw [getLast?_drop_eq _ _ hfl, hL]
  have hlived : (input.drop front).dropLast ++ [io] = input.drop front :=
    List.dropLast_append_getLast? io hlast
  have e2 : sumSize (input.drop front) =
      sumSize (input.drop front).dropLast + io.size := by
    conv_lhs => rw [← hlived]
    rw [sumSize_concat]
  have hfd : front ≤ input.dropLast.length := by
    rw [List.length_dropLast]
    omega
  by_cases h1 : chunksize < io.size
  · rw [if_pos h1] at hr
    have hcomb : ∀ (consumed : Nat) (out' : List IOPosBuffer) (c' : Nat) (eb' : Bool),
        consumeChunkBackGo (chunksize + input.length) front
          (input.dropLast ++ [ advanceIO io consumed]) out' c' eb' = r →
        0 < consumed → consumed ≤ io.size →
        sumSize (r.input.drop front) + (r.input.length - front) <
          sumSize (input.drop front) + (input.length - front) := by
      intro consumed out' c' eb' hr' hpos hle
      have hlen' : (input.dropLast ++ [ advanceIO io consumed]).length = input.length := by
        rw [List.length_append, List.length_dropLast]
        simp only [List.length_cons, List.length_nil]
        omega
      have hmeas := consumeChunkBackGo_meas_le _ _ _ _ _ _ _ hr'
        (by rw [hlen']; exact Nat.le_of_lt hfl)
      have e1 : sumSize ((input.dropLast ++ [ advanceIO io consumed]).drop front) =
          sumSize (input.drop front).dropLast + (io.size - consumed) := by
        rw [drop_append_of_le _ _ _ hfd, sumSize_concat, dropLast_drop_comm _ _ hfl]
        rfl
      rw [e1, hlen'] at hmeas
      rw [e2]
      omega
    cases hm : output.getLast? with
    | none =>
      rw [hm] at hr
      dsimp only at hr
      exact hcomb chunksize _ 0 _ hr hc (Nat.le_of_lt h1)
    | some outio =>
      rw [hm] at hr
      dsimp only at hr
      by_cases h2 : outio.size < XRD_CL_MAX_CHUNK ∧
          outio.offset + (outio.size : Int) = io.offset
      · rw [if_pos h2] at hr
        by_cases h3 : XRD_CL_MAX_CHUNK < outio.size + chunksize
        · rw [if_pos h3] at hr
          exact hcomb (XRD_CL_MAX_CHUNK - outio.size) _ _ _ hr (by omega) (by omega)
        · rw [if_neg h3] at hr
          exact hcomb chunksize _ 0 _ hr hc (Nat.le_of_lt h1)
      · rw [if_neg h2] at hr
        exact hcomb chunksize _ 0 _ hr hc (Nat.le_of_lt h1)
  · rw [if_neg h1] at hr
    have hd : sumSize (input.dropLast.drop front) =
        sumSize (input.drop front).dropLast := by
      rw [dropLast_drop_comm _ _ hfl]
    have hdl : input.dropLast.length = input.length - 1 := List.length_dropLast input
    by_cases h0 : io.size = 0
    · rw [if_pos h0] at hr
      have hmeas := consumeChunkBackGo_meas_le _ _ _ _ _ _ _ hr hfd
      rw [hd, hdl] at hmeas
      rw [e2, h0]
      omega
    · rw [if_neg h0] at hr
      have hmeas := consumeChunkBackGo_meas_le _ _ _ _ _ _ _ hr hfd
      rw [hd, hdl] at hmeas
      rw [e2]
      omega

/-- Sorting by offset does not change the total byte count. -/
theorem sumSize_sortByOffset (l : List IOPosBuffer) :
    sumSize (sortByOffset l) = sumSize l := by
  have hp : List.Perm (sortByOffset l) l := List.perm_insertionSort _ l
  exact List.Perm.sum_eq (hp.map IOPosBuffer.size)

/-- The outer split loop conserves bytes: when it terminates, the two
output lists together hold exactly the bytes of the live region plus
whatever was already in the outputs. -/
theorem splitLoopGo_sum (fuel : Nat) :
    ∀ front tmp req1 req2 e1 e2 chunk1 chunk2 out,
      splitLoopGo fuel front tmp req1 req2 e1 e2 chunk1 chunk2 = some out →
      front ≤ tmp.length →
      sumSize out.2.2.req1 + sumSize out.2.2.req2 =
        sumSize (tmp.drop front) + sumSize req1 + sumSize req2 := by
  induction fuel with
  | zero =>
    intro front tmp req1 req2 e1 e2 c1 c2 out h hf
    exact absurd h (by simp [splitLoopGo])
  | succ n ih =>
    intro front tmp req1 req2 e1 e2 c1 c2 out h hf
    rw [splitLoopGo] at h
    dsimp only at h
    by_cases hfl : front < tmp.length
    · rw [if_pos hfl] at h
      obtain ⟨h1l, h1m, h1r, h1out, h1sum⟩ :=
        consumeChunkFrontGo_spec (c1 + tmp.length + 1) front tmp req1 c1 e1
          (consumeChunkFront front tmp req1 c1 e1) rfl (Nat.le_of_lt hfl)
      obtain ⟨h2f, h2m, h2l, h2out, h2sum⟩ :=
        consumeChunkBackGo_spec
          (c2 + (consumeChunkFront front tmp req1 c1 e1).input.length + 1)
          (consumeChunkFront front tmp req1 c1 e1).front
          (consumeChunkFront front tmp req1 c1 e1).input req2 c2 e2
          (consumeChunkBack (consumeChunkFront front tmp req1 c1 e1).front
            (consumeChunkFront front tmp req1 c1 e1).input req2 c2 e2) rfl
          (by rw [h1l]; exact h1r)
      have hih := ih _ _ _ _ _ _ c1 c2 out h (by rw [h2f]; exact h2m)
      rw [h2f] at hih
      omega
    · rw [if_neg hfl] at h
      rw [Option.some.injEq] at h
      rw [← h]
      dsimp only
      rw [List.drop_eq_nil_of_le (Nat.le_of_not_lt hfl), sumSize_nil]
      omega

/-- The outer split loop terminates whenever at least one chunk budget is
positive: fuel exceeding live bytes plus live fragment count suffices. -/
theorem splitLoopGo_total (fuel : Nat) :
    ∀ front tmp req1 req2 e1 e2 chunk1 chunk2,
      (0 < chunk1 ∨ 0 < chunk2) → front ≤ tmp.length →
      sumSize (tmp.drop front) + (tmp.length - front) < fuel →
      (splitLoopGo fuel front tmp req1 req2 e1 e2 chunk1 chunk2).isSome = true := by
  induction fuel with
  | zero =>
    intro front tmp req1 req2 e1 e2 c1 c2 hc hf hm
    omega
  | succ n ih =>
    intro front tmp req1 req2 e1 e2 c1 c2 hc hf hm
    rw [splitLoopGo]
    dsimp only
    by_cases hfl : front < tmp.length
    · rw [if_pos hfl]
      obtain ⟨h1l, h1m, h1r, h1out, h1sum⟩ :=
        consumeChunkFrontGo_spec (c1 + tmp.length + 1) front tmp req1 c1 e1
          (consumeChunkFront front tmp req1 c1 e1) rfl (Nat.le_of_lt hfl)
      obtain ⟨h2f, h2m, h2l, h2out, h2sum⟩ :=
        consumeChunkBackGo_spec
          (c2 + (consumeChunkFront front tmp req1 c1 e1).input.length + 1)
          (consumeChunkFront front tmp req1 c1 e1).front
          (consumeChunkFront front tmp req1 c1 e1).input req2 c2 e2
          (consumeChunkBack (consumeChunkFront front tmp req1 c1 e1).front
            (consumeChunkFront front tmp req1 c1 e1).input req2 c2 e2) rfl
          (by rw [h1l]; exact h1r)
      have hmeas2 :
          sumSize ((consumeChunkBack (consumeChunkFront front tmp req1 c1 e1).front
              (consumeChunkFront front tmp req1 c1 e1).input req2 c2 e2).input.drop
                (consumeChunkFront front tmp req1 c1 e1).front) +
            ((consumeChunkBack (consumeChunkFront front tmp req1 c1 e1).front
              (consumeChunkFront front tmp req1 c1 e1).input req2 c2 e2).input.length -
                (consumeChunkFront front tmp req1 c1 e1).front) <
            sumSize (tmp.drop front) + (tmp.length - front) := by
        have hble := consumeChunkBackGo_meas_le
          (c2 + (consumeChunkFront front tmp req1 c1 e1).input.length + 1)
          (consumeChunkFront front tmp req1 c1 e1).front
          (consumeChunkFront front tmp req1 c1 e1).input req2 c2 e2 _ rfl
          (by rw [h1l]; exact h1r)
        rcases hc with hc1 | hc2
        · have hstrict := consumeChunkFront_meas_lt front tmp req1 c1 e1 _ rfl hc1 hfl
          rw [h1l] at hstrict
          omega
        · by_cases hc1 : 0 < c1
          · have hstrict := consumeChunkFront_meas_lt front tmp req1 c1 e1 _ rfl hc1 hfl
            rw [h1l] at hstrict
            omega
          · have hzero : c1 = 0 := by omega
            subst hzero
            rw [consumeChunkFront_zero] at hble ⊢
            have hstrict := consumeChunkBack_meas_lt front tmp req2 c2 e2 _ rfl hc2 hfl
            dsimp only at hble ⊢
            exact hstrict
      refine ih _ _ _ _ _ _ c1 c2 hc (by rw [h2f]; exact h2m) ?_
      rw [h2f]
      omega
    · rw [if_neg hfl]
      rfl

/-- C1: `splitClientRequest` preserves the total byte count — for every
terminating split (and the split terminates whenever at least one chunk
budget is positive, which the quality-weighted float computation
guarantees when `q1 + q2 > 0`), the sum of the fragment sizes of `req1`
plus the sum of the fragment sizes of `req2` equals the sum of the
fragment sizes of the input scatter list. -/
theorem splitClientRequest_preserves_total_bytes (chunk1 chunk2 : Nat)
    (iolist : List IOPosBuffer) :
    (∀ res, splitClientRequest chunk1 chunk2 iolist = some res →
      sumSize res.req1 + sumSize res.req2 = sumSize iolist) ∧
    ((0 < chunk1 ∨ 0 < chunk2) →
      (splitClientRequest chunk1 chunk2 iolist).isSome = true) := by
  constructor
  · intro res hres
    rw [splitClientRequest] at hres
    by_cases hz : iolist.length = 0
    · rw [if_pos hz] at hres
      rw [Option.some.injEq] at hres
      rw [List.length_eq_zero.1 hz, ← hres]
      rfl
    · rw [if_neg hz] at hres
      revert hres
      cases hloop : splitLoopGo (sumSize iolist + iolist.length + 1) 0 iolist [] [] false false
          chunk1 chunk2 with
      | none => intro hres; exact absurd hres (by simp)
      | some out =>
        intro hres
        obtain ⟨f', t', r'⟩ := out
        rw [Option.some.injEq] at hres
        have hs := splitLoopGo_sum _ _ _ _ _ _ _ _ _ _ hloop (Nat.zero_le _)
        rw [List.drop_zero, sumSize_nil] at hs
        dsimp only at hs
        rw [← hres]
        dsimp only
        rw [sumSize_sortByOffset, sumSize_sortByOffset]
        omega
  · intro hc
    rw [splitClientRequest]
    by_cases hz : iolist.length = 0
    · rw [if_pos hz]
      rfl
    · rw [if_neg hz]
      have ht := splitLoopGo_total (sumSize iolist + iolist.length + 1) 0 iolist [] [] false
        false chunk1 chunk2 hc (Nat.zero_le _) (by rw [List.drop_zero]; omega)
      revert ht
      cases hloop : splitLoopGo (sumSize iolist + iolist.length + 1) 0 iolist [] [] false false
          chunk1 chunk2 with
      | none => intro ht; exact absurd ht (by simp)
      | some out => intro ht; rfl

/-- C1, witness: the split of `[(0,3), (10,4)]` with budgets 2/2 conserves
the 7 input bytes across the two output lists. -/
theorem splitClientRequest_preserves_total_bytes_witness :
    sumSize [⟨0, 0, 2⟩, ⟨2, 2, 1⟩, ⟨12, 12, 1⟩] + sumSize [⟨10, 10, 2⟩, ⟨13, 13, 1⟩] =
      sumSize [⟨0, 0, 3⟩, ⟨10, 10, 4⟩] ∧
    (splitClientRequest 2 2 [⟨0, 0, 3⟩, ⟨10, 10, 4⟩]).isSome = true :=
  ⟨(splitClientRequest_preserves_total_bytes 2 2 [⟨0, 0, 3⟩, ⟨10, 10, 4⟩]).1
      ⟨[⟨0, 0, 2⟩, ⟨2, 2, 1⟩, ⟨12, 12, 1⟩], [⟨10, 10, 2⟩, ⟨13, 13, 1⟩], true, true⟩ rfl,
    (splitClientRequest_preserves_total_bytes 2 2 [⟨0, 0, 3⟩, ⟨10, 10, 4⟩]).2
      (Or.inl (by decide))⟩

/-- Two fragments describe disjoint (possibly touching) byte ranges. -/
def Disj (a b : IOPosBuffer) : Prop :=
  a.offset + (a.size : Int) ≤ b.offset ∨ b.offset + (b.size : Int) ≤ a.offset

theorem disj_iff (a b : IOPosBuffer) :
    Disj a b ↔
      (a.offset + (a.size : Int) ≤ b.offset ∨ b.offset + (b.size : Int) ≤ a.offset) :=
  Iff.rfl

instance (a b : IOPosBuffer) : Decidable (Disj a b) := by
  rw [disj_iff]
  infer_instance

theorem disj_symm : Symmetric Disj := by
  intro a b h
  rw [disj_iff] at h ⊢
  tauto

/-- The fragments of positive size (zero-size fragments are skipped by the
consume loops and never emitted). -/
def posFrags (l : List IOPosBuffer) : List IOPosBuffer :=
  l.filter (fun p => decide (0 < p.size))

theorem posFrags_nil : posFrags [] = [] := rfl

theorem posFrags_append (l₁ l₂ : List IOPosBuffer) :
    posFrags (l₁ ++ l₂) = posFrags l₁ ++ posFrags l₂ := by
  rw [posFrags, posFrags, posFrags, List.filter_append]

theorem posFrags_cons_pos (a : IOPosBuffer) (l : List IOPosBuffer) (h : 0 < a.size) :
    posFrags (a :: l) = a :: posFrags l := by
  rw [posFrags, List.filter_cons, if_pos (by simpa using h)]
  rfl

theorem posFrags_cons_zero (a : IOPosBuffer) (l : List IOPosBuffer) (h : a.size = 0) :
    posFrags (a :: l) = posFrags l := by
  rw [posFrags, List.filter_cons, if_neg (by simp [h])]
  rfl

theorem posFrags_singleton_pos (a : IOPosBuffer) (h : 0 < a.size) :
    posFrags [a] = [a] := by
  rw [posFrags_cons_pos _ _ h, posFrags_nil]

theorem mem_posFrags (p : IOPosBuffer) (l : List IOPosBuffer) (h : p ∈ posFrags l) :
    p ∈ l ∧ 1 ≤ p.size := by
  rw [posFrags, List.mem_filter] at h
  exact ⟨h.1, by simpa using of_decide_eq_true h.2⟩

/-- A fragment disjoint from a range is disjoint from any subrange. -/
theorem disj_of_sub (a io p : IOPosBuffer) (h1 : io.offset ≤ p.offset)
    (h2 : p.offset + (p.size : Int) ≤ io.offset + io.size) (h : Disj a io) : Disj a p := by
  rw [disj_iff] at h ⊢
  omega

/-- A fragment of positive size disjoint from two adjacent ranges is
disjoint from the coalesced range. -/
theorem disj_union (a outio io : IOPosBuffer) (consumed : Nat)
    (hadj : outio.offset + (outio.size : Int) = io.offset)
    (hle : consumed ≤ io.size) (ha : 1 ≤ a.size)
    (h1 : Disj a outio) (h2 : Disj a io) :
    Disj a { outio with size := outio.size + consumed } := by
  rw [disj_iff] at h1 h2 ⊢
  dsimp only
  omega

/-- Splitting the head of the live region into an emitted piece and the
advanced remainder preserves pairwise disjointness. -/
theorem pairwise_disj_split (Y rest : List IOPosBuffer) (io p q : IOPosBuffer)
    (hp1 : io.offset ≤ p.offset) (hp2 : p.offset + (p.size : Int) ≤ io.offset + io.size)
    (hq1 : io.offset ≤ q.offset) (hq2 : q.offset + (q.size : Int) ≤ io.offset + io.size)
    (hpq : Disj p q)
    (h : List.Pairwise Disj (Y ++ io :: rest)) :
    List.Pairwise Disj (Y ++ p :: q :: rest) := by
  rw [List.pairwise_append] at h ⊢
  obtain ⟨hYpw, hlive, hcross⟩ := h
  rw [List.pairwise_cons] at hlive
  obtain ⟨hio_rest, hrest_pw⟩ := hlive
  refine ⟨hYpw, ?_, ?_⟩
  · rw [List.pairwise_cons]
    refine ⟨?_, ?_⟩
    · intro b hb
      rcases List.mem_cons.1 hb with rfl | hb
      · exact hpq
      · exact disj_symm (disj_of_sub b io p hp1 hp2 (disj_symm (hio_rest b hb)))
    · rw [List.pairwise_cons]
      refine ⟨?_, hrest_pw⟩
      intro b hb
      exact disj_symm (disj_of_sub b io q hq1 hq2 (disj_symm (hio_rest b hb)))
  · intro a ha b hb
    rcases List.mem_cons.1 hb with rfl | hb
    · exact disj_of_sub a io b hp1 hp2 (hcross a ha io (List.mem_cons_self _ _))
    · rcases List.mem_cons.1 hb with rfl | hb
      · exact disj_of_sub a io b hq1 hq2 (hcross a ha io (List.mem_cons_self _ _))
      · exact hcross a ha b (List.mem_cons_of_mem _ hb)

/-- Coalescing the tail of the output with the front of the adjacent live
head preserves pairwise disjointness (all other fragments have positive
size). -/
theorem pairwise_disj_merge (Y rest : List IOPosBuffer) (outio io : IOPosBuffer)
    (consumed : Nat)
    (hY : ∀ a ∈ Y, 1 ≤ a.size) (hrest : ∀ b ∈ rest, 1 ≤ b.size)
    (hadj : outio.offset + (outio.size : Int) = io.offset)
    (hlt : consumed < io.size)
    (h : List.Pairwise Disj (Y ++ outio :: io :: rest)) :
    List.Pairwise Disj (Y ++ { outio with size := outio.size + consumed } ::
      advanceIO io consumed :: rest) := by
  rw [List.pairwise_append] at h ⊢
  obtain ⟨hYpw, hlive, hcross⟩ := h
  rw [List.pairwise_cons] at hlive
  obtain ⟨houtio_all, hio_pw⟩ := hlive
  rw [List.pairwise_cons] at hio_pw
  obtain ⟨hio_rest, hrest_pw⟩ := hio_pw
  refine ⟨hYpw, ?_, ?_⟩
  · rw [List.pairwise_cons]
    refine ⟨?_, ?_⟩
    · intro b hb
      rcases List.mem_cons.1 hb with rfl | hb
      · rw [disj_iff]
        left
        dsimp only [ advanceIO]
        omega
      · exact disj_symm (disj_union b outio io consumed hadj (Nat.le_of_lt hlt)
          (hrest b hb)
          (disj_symm (houtio_all b (List.mem_cons_of_mem _ hb)))
          (disj_symm (hio_rest b hb)))
    · rw [List.pairwise_cons]
      refine ⟨?_, hrest_pw⟩
      intro b hb
      exact disj_symm (disj_of_sub b io ( advanceIO io consumed)
        (by dsimp only [ advanceIO]; omega)
        (by dsimp only [ advanceIO]; omega)
        (disj_symm (hio_rest b hb)))
  · intro a ha b hb
    rcases List.mem_cons.1 hb with rfl | hb
    · exact disj_union a outio io consumed hadj (Nat.le_of_lt hlt) (hY a ha)
        (hcross a ha outio (List.mem_cons_self _ _))
        (hcross a ha io (List.mem_cons_of_mem _ (List.mem_cons_self _ _)))
    · rcases List.mem_cons.1 hb with rfl | hb
      · exact disj_of_sub a io ( advanceIO io consumed)
          (by dsimp only [ advanceIO]; omega)
          (by dsimp only [ advanceIO]; omega)
          (hcross a ha io (List.mem_cons_of_mem _ (List.mem_cons_self _ _)))
      · exact hcross a ha b (List.mem_cons_of_mem _ (List.mem_cons_of_mem _ hb))

theorem append_emit_eq {α : Type} (X out rest : List α) (p : α) :
    X ++ (out ++ [p]) ++ rest = (X ++ out) ++ (p :: rest) := by
  simp [List.append_assoc]

theorem perm_snoc_mid {α : Type} (A B : List α) (x : α) :
    List.Perm ((A ++ [x]) ++ B) ((A ++ B) ++ [x]) := by
  have h1 : (A ++ [x]) ++ B = A ++ ([x] ++ B) := by
    simp [List.append_assoc]
  have h2 : (A ++ B) ++ [x] = A ++ (B ++ [x]) := by
    simp [List.append_assoc]
  rw [h1, h2]
  exact List.Perm.append_left A List.perm_append_comm

theorem perm_back_emit {α : Type} (A B : List α) (p q : α) :
    List.Perm ((A ++ [p]) ++ (B ++ [q])) ((A ++ B) ++ [p, q]) := by
  have h1 : (A ++ [p]) ++ (B ++ [q]) = ((A ++ [p]) ++ B) ++ [q] := by
    simp [List.append_assoc]
  have h2 : (A ++ B) ++ [p, q] = ((A ++ B) ++ [p]) ++ [q] := by
    simp [List.append_assoc]
  rw [h1, h2]
  exact List.Perm.append_right [q] (perm_snoc_mid A B p)

/-- Output-fragment bounds maintained by the consume loops: the fragment
is non-empty, capped at `XRD_CL_MAX_CHUNK`, and its end stays below `H`. -/
def GoodPiece (H : Int) (p : IOPosBuffer) : Prop :=
  1 ≤ p.size ∧ p.size ≤ XRD_CL_MAX_CHUNK ∧ p.offset + (p.size : Int) ≤ H

theorem goodPiece_iff (H : Int) (p : IOPosBuffer) :
    GoodPiece H p ↔ (1 ≤ p.size ∧ p.size ≤ XRD_CL_MAX_CHUNK ∧ p.offset + (p.size : Int) ≤ H) :=
  Iff.rfl

/-- Disjointness and bounds invariant of the front consume loop: given
that the other output `X`, the own output and the positive live fragments
are pairwise disjoint, that the output pieces are good (non-empty, capped,
below `H`) and the live fragments end below `H`, all of this still holds
after the call. -/
theorem consumeChunkFrontGo_disj (fuel : Nat) (H : Int) (X : List IOPosBuffer) :
    ∀ front input output chunksize eb r,
      consumeChunkFrontGo fuel front input output chunksize eb = r →
      front ≤ input.length →
      chunksize ≤ XRD_CL_MAX_CHUNK →
      (∀ p ∈ X, 1 ≤ p.size) →
      (∀ p ∈ output, GoodPiece H p) →
      (∀ p ∈ input.drop front, p.offset + (p.size : Int) ≤ H) →
      List.Pairwise Disj (X ++ output ++ posFrags (input.drop front)) →
      (∀ p ∈ r.output, GoodPiece H p) ∧
      (∀ p ∈ r.input.drop r.front, p.offset + (p.size : Int) ≤ H) ∧
      List.Pairwise Disj (X ++ r.output ++ posFrags (r.input.drop r.front)) := by
  induction fuel with
  | zero =>
    intro front input output c eb r hr hf hcm hX hout hlive hpw
    rw [consumeChunkFrontGo] at hr
    subst hr
    exact ⟨hout, hlive, hpw⟩
  | succ n ih =>
    intro front input output c eb r hr hf hcm hX hout hlive hpw
    rw [consumeChunkFrontGo] at hr
    dsimp only at hr
    by_cases hg : 0 < c ∧ front < input.length
    · rw [dif_pos hg] at hr
      set io := input.get ⟨front, hg.2⟩ with hiodef
      have hdrop : input.drop front = io :: input.drop (front + 1) := by
        rw [List.drop_eq_getElem_cons hg.2]
        rfl
      have hliveio : io.offset + (io.size : Int) ≤ H :=
        hlive io (by rw [hdrop]; exact List.mem_cons_self _ _)
      have hliverest : ∀ p ∈ input.drop (front + 1), p.offset + (p.size : Int) ≤ H :=
        fun p hp => hlive p (by rw [hdrop]; exact List.mem_cons_of_mem _ hp)
      by_cases h1 : c < io.size
      · rw [if_pos h1] at hr
        have hiopos : 0 < io.size := Nat.lt_of_le_of_lt (Nat.zero_le c) h1
        have hpf : posFrags (input.drop front) = io :: posFrags (input.drop (front + 1)) := by
          rw [hdrop, posFrags_cons_pos _ _ hiopos]
        rw [hpf] at hpw
        have hstep : ∀ (consumed : Nat) (out' : List IOPosBuffer) (c' : Nat) (eb' : Bool),
            consumeChunkFrontGo n front (input.set front ( advanceIO io consumed))
              out' c' eb' = r →
            consumed < io.size → c' ≤ XRD_CL_MAX_CHUNK →
            (∀ p ∈ out', GoodPiece H p) →
            List.Pairwise Disj (X ++ out' ++
              ( advanceIO io consumed :: posFrags (input.drop (front + 1)))) →
            (∀ p ∈ r.output, GoodPiece H p) ∧
            (∀ p ∈ r.input.drop r.front, p.offset + (p.size : Int) ≤ H) ∧
            List.Pairwise Disj (X ++ r.output ++ posFrags (r.input.drop r.front)) := by
          intro consumed out' c' eb' hr' hclt hc' hout' hpw'
          apply ih _ _ _ _ _ _ hr' (by rw [List.length_set]; exact hf) hc' hX hout'
          · intro p hp
            rw [drop_set_self _ _ _ hg.2] at hp
            rcases List.mem_cons.1 hp with rfl | hp
            · dsimp only [ advanceIO]
              omega
            · exact hliverest p hp
          · rw [drop_set_self _ _ _ hg.2,
              posFrags_cons_pos _ _ (by dsimp only [ advanceIO]; omega)]
            exact hpw'
        have hfreshPW : List.Pairwise Disj (X ++ (output ++ [⟨io.offset, io.data, c⟩]) ++
            ( advanceIO io c :: posFrags (input.drop (front + 1)))) := by
          rw [append_emit_eq]
          apply pairwise_disj_split (X ++ output) _ io _ _
            (by dsimp only; omega) (by dsimp only; omega)
            (by dsimp only [ advanceIO]; omega) (by dsimp only [ advanceIO]; omega)
            (by rw [disj_iff]; left; dsimp only [ advanceIO]; omega)
            hpw
        have hfreshOut : ∀ p ∈ output ++ [(⟨io.offset, io.data, c⟩ : IOPosBuffer)],
            GoodPiece H p := by
          intro p hp
          rcases List.mem_append.1 hp with hp | hp
          · exact hout p hp
          · rw [List.mem_singleton] at hp
            subst hp
            exact ⟨hg.1, hcm, by dsimp only; omega⟩
        cases hm : output.getLast? with
        | none =>
          rw [hm] at hr
          dsimp only at hr
          exact hstep c _ 0 _ hr h1 (Nat.zero_le _) hfreshOut hfreshPW
        | some outio =>
          rw [hm] at hr
          dsimp only at hr
          have houtd : output.dropLast ++ [outio] = output :=
            List.dropLast_append_getLast? outio hm
          have houtio_good : GoodPiece H outio := by
            apply hout outio
            rw [← houtd]
            exact List.mem_append.2 (Or.inr (List.mem_singleton.2 rfl))
          have hOD_good : ∀ p ∈ output.dropLast, GoodPiece H p :=
            fun p hp => hout p ((List.dropLast_sublist output).subset hp)
          by_cases h2 : outio.size < XRD_CL_MAX_CHUNK ∧
              outio.offset + (outio.size : Int) = io.offset
          · rw [if_pos h2] at hr
            rw [← houtd] at hpw
            rw [append_emit_eq] at hpw
            have hmergeCommon : ∀ (consumed : Nat), 0 < consumed → consumed < io.size →
                outio.size + consumed ≤ XRD_CL_MAX_CHUNK →
                (∀ p ∈ output.dropLast ++ [{ outio with size := outio.size + consumed }],
                  GoodPiece H p) ∧
                List.Pairwise Disj (X ++
                  (output.dropLast ++ [{ outio with size := outio.size + consumed }]) ++
                  ( advanceIO io consumed :: posFrags (input.drop (front + 1)))) := by
              intro consumed hcpos hclt hcap
              constructor
              · intro p hp
                rcases List.mem_append.1 hp with hp | hp
                · exact hOD_good p hp
                · rw [List.mem_singleton] at hp
                  subst hp
                  refine ⟨by dsimp only; omega, by dsimp only; omega, ?_⟩
                  dsimp only
                  have := h2.2
                  omega
              · rw [append_emit_eq]
                apply pairwise_disj_merge (X ++ output.dropLast) _ outio io consumed
                  ?_ ?_ h2.2 hclt hpw
                · intro a ha
                  rcases List.mem_append.1 ha with ha | ha
                  · exact hX a ha
                  · exact (hOD_good a ha).1
                · intro b hb
                  exact (mem_posFrags b _ hb).2
            by_cases h3 : XRD_CL_MAX_CHUNK < outio.size + c
            · rw [if_pos h3] at hr
              rw [show ({ outio with size := XRD_CL_MAX_CHUNK } : IOPosBuffer) =
                  { outio with size := outio.size + (XRD_CL_MAX_CHUNK - outio.size) } by
                rw [Nat.add_sub_cancel' (Nat.le_of_lt h2.1)]] at hr
              obtain ⟨hgo, hgp⟩ := hmergeCommon (XRD_CL_MAX_CHUNK - outio.size)
                (by omega) (by omega) (by omega)
              exact hstep _ _ _ _ hr (by omega) (by omega) hgo hgp
            · rw [if_neg h3] at hr
              obtain ⟨hgo, hgp⟩ := hmergeCommon c hg.1 h1 (by omega)
              exact hstep _ _ _ _ hr h1 (Nat.zero_le _) hgo hgp
          · rw [if_neg h2] at hr
            exact hstep c _ 0 _ hr h1 (Nat.zero_le _) hfreshOut hfreshPW
      · rw [if_neg h1] at hr
        by_cases h0 : io.size = 0
        · rw [if_pos h0] at hr
          apply ih _ _ _ _ _ _ hr hg.2 hcm hX hout hliverest
          rw [hdrop, posFrags_cons_zero _ _ h0] at hpw
          exact hpw
        · rw [if_neg h0] at hr
          apply ih _ _ _ _ _ _ hr hg.2 (by omega) hX ?_ hliverest ?_
          · intro p hp
            rcases List.mem_append.1 hp with hp | hp
            · exact hout p hp
            · rw [List.mem_singleton] at hp
              subst hp
              exact ⟨by omega, by omega, hliveio⟩
          · rw [append_emit_eq]
            rw [hdrop, posFrags_cons_pos _ _ (by omega)] at hpw
            exact hpw
    · rw [dif_neg hg] at hr
      subst hr
      exact ⟨hout, hlive, hpw⟩

/-- Disjointness and bounds invariant of the back consume loop. -/
theorem consumeChunkBackGo_disj (fuel : Nat) (H : Int) (X : List IOPosBuffer) :
    ∀ front input output chunksize eb r,
      consumeChunkBackGo fuel front input output chunksize eb = r →
      front ≤ input.length →
      chunksize ≤ XRD_CL_MAX_CHUNK →
      (∀ p ∈ X, 1 ≤ p.size) →
      (∀ p ∈ output, GoodPiece H p) →
      (∀ p ∈ input.drop front, p.offset + (p.size : Int) ≤ H) →
      List.Pairwise Disj (X ++ output ++ posFrags (input.drop front)) →
      (∀ p ∈ r.output, GoodPiece H p) ∧
      (∀ p ∈ r.input.drop front, p.offset + (p.size : Int) ≤ H) ∧
      List.Pairwise Disj (X ++ r.output ++ posFrags (r.input.drop front)) := by
  induction fuel with
  | zero =>
    intro front input output c eb r hr hf hcm hX hout hlive hpw
    rw [consumeChunkBackGo] at hr
    subst hr
    exact ⟨hout, hlive, hpw⟩
  | succ n ih =>
    intro front input output c eb r hr hf hcm hX hout hlive hpw
    rw [consumeChunkBackGo] at hr
    dsimp only at hr
    by_cases hg : 0 < c ∧ front < input.length
    · rw [dif_pos hg] at hr
      cases hL : input.getLast? with
      | none =>
        rw [hL] at hr
        dsimp only at hr
        subst hr
        exact ⟨hout, hlive, hpw⟩
      | some io =>
        rw [hL] at hr
        dsimp only at hr
        have hlast : (input.drop front).getLast? = some io := by
          rw [getLast?_drop_eq _ _ hg.2, hL]
        have hlived : (input.drop front).dropLast ++ [io] = input.drop front :=
          List.dropLast_append_getLast? io hlast
        have hliveio : io.offset + (io.size : Int) ≤ H := by
          apply hlive io
          rw [← hlived]
          exact List.mem_append.2 (Or.inr (List.mem_singleton.2 rfl))
        have hliveInit : ∀ p ∈ (input.drop front).dropLast,
            p.offset + (p.size : Int) ≤ H :=
          fun p hp => hlive p ((List.dropLast_sublist _).subset hp)
        have hfd : front ≤ input.dropLast.length := by
          rw [List.length_dropLast]
          omega
        have hInitEq : input.dropLast.drop front = (input.drop front).dropLast :=
          dropLast_drop_comm _ _ hg.2
        by_cases h1 : c < io.size
        · rw [if_pos h1] at hr
          have hiopos : 0 < io.size := Nat.lt_of_le_of_lt (Nat.zero_le c) h1
          have hpflive : posFrags (input.drop front) =
              posFrags (input.drop front).dropLast ++ [io] := by
            conv_lhs => rw [← hlived]
            rw [posFrags_append, posFrags_singleton_pos _ hiopos]
          rw [hpflive] at hpw
          rw [← List.append_assoc] at hpw
          -- hpw : PW (((X ++ output) ++ posFrags liveInit) ++ [io])
          have hstep : ∀ (consumed : Nat) (out' : List IOPosBuffer) (c' : Nat) (eb' : Bool),
              consumeChunkBackGo n front (input.dropLast ++ [ advanceIO io consumed])
                out' c' eb' = r →
              consumed < io.size → c' ≤ XRD_CL_MAX_CHUNK →
              (∀ p ∈ out', GoodPiece H p) →
              List.Pairwise Disj (X ++ out' ++
                (posFrags (input.drop front).dropLast ++ [ advanceIO io consumed])) →
              (∀ p ∈ r.output, GoodPiece H p) ∧
              (∀ p ∈ r.input.drop front, p.offset + (p.size : Int) ≤ H) ∧
              List.Pairwise Disj (X ++ r.output ++ posFrags (r.input.drop front)) := by
            intro consumed out' c' eb' hr' hclt hc' hout' hpw'
            have hlen' : (input.dropLast ++ [ advanceIO io consumed]).length = input.length := by
              rw [List.length_append, List.length_dropLast]
              simp only [List.length_cons, List.length_nil]
              omega
            have hdrop' : (input.dropLast ++ [ advanceIO io consumed]).drop front =
                (input.drop front).dropLast ++ [ advanceIO io consumed] := by
              rw [drop_append_of_le _ _ _ hfd, hInitEq]
            apply ih _ _ _ _ _ _ hr' (by rw [hlen']; exact hf) hc' hX hout'
            · intro p hp
              rw [hdrop'] at hp
              rcases List.mem_append.1 hp with hp | hp
              · exact hliveInit p hp
              · rw [List.mem_singleton] at hp
                subst hp
                dsimp only [ advanceIO]
                omega
            · rw [hdrop', posFrags_append,
                posFrags_singleton_pos _ (by dsimp only [ advanceIO]; omega)]
              exact hpw'
          cases hm : output.getLast? with
          | none =>
            rw [hm] at hr
            dsimp only at hr
            apply hstep c _ 0 _ hr h1 (Nat.zero_le _)
            · intro p hp
              rcases List.mem_append.1 hp with hp | hp
              · exact hout p hp
              · rw [List.mem_singleton] at hp
                subst hp
                exact ⟨hg.1, hcm, by dsimp only; omega⟩
            · -- pairwise: transport along the permutation that moves the
              -- emitted piece past the untouched live prefix
              have hnew : List.Pairwise Disj
                  (((X ++ output) ++ posFrags (input.drop front).dropLast) ++
                    [(⟨io.offset, io.data, c⟩ : IOPosBuffer), advanceIO io c]) := by
                apply pairwise_disj_split _ [] io _ _
                  (by dsimp only; omega) (by dsimp only; omega)
                  (by dsimp only [ advanceIO]; omega) (by dsimp only [ advanceIO]; omega)
                  (by rw [disj_iff]; left; dsimp only [ advanceIO]; omega)
                  hpw
              have hperm := perm_back_emit (X ++ output)
                (posFrags (input.drop front).dropLast)
                (⟨io.offset, io.data, c⟩ : IOPosBuffer) ( advanceIO io c)
              have := hnew.perm hperm.symm (fun {x y} h => disj_symm h)
              simpa only [List.append_assoc, List.singleton_append, List.cons_append]
                using this
          | some outio =>
            rw [hm] at hr
            dsimp only at hr
            have houtd : output.dropLast ++ [outio] = output :=
              List.dropLast_append_getLast? outio hm
            have houtio_good : GoodPiece H outio := by
              apply hout outio
              rw [← houtd]
              exact List.mem_append.2 (Or.inr (List.mem_singleton.2 rfl))
            have hOD_good : ∀ p ∈ output.dropLast, GoodPiece H p :=
              fun p hp => hout p ((List.dropLast_sublist output).subset hp)
            by_cases h2 : outio.size < XRD_CL_MAX_CHUNK ∧
                outio.offset + (outio.size : Int) = io.offset
            · rw [if_pos h2] at hr
              -- bring the output tail next to the live tail
              rw [← houtd] at hpw
              have hpw2 : List.Pairwise Disj
                  (((X ++ output.dropLast) ++ posFrags (input.drop front).dropLast) ++
                    [outio, io]) := by
                have hperm := perm_back_emit (X ++ output.dropLast)
                  (posFrags (input.drop front).dropLast) outio io
                refine (List.Pairwise.perm ?_ hperm (fun {x y} h => disj_symm h))
                rw [show ((X ++ output.dropLast) ++ [outio]) ++
                    (posFrags (input.drop front).dropLast ++ [io]) =
                  ((X ++ (output.dropLast ++ [outio])) ++
                    posFrags (input.drop front).dropLast) ++ [io] by
                  simp [List.append_assoc]]
                exact hpw
              have hmergeCommon : ∀ (consumed : Nat), 0 < consumed → consumed < io.size →
                  outio.size + consumed ≤ XRD_CL_MAX_CHUNK →
                  (∀ p ∈ output.dropLast ++ [{ outio with size := outio.size + consumed }],
                    GoodPiece H p) ∧
                  List.Pairwise Disj (X ++
                    (output.dropLast ++ [{ outio with size := outio.size + consumed }]) ++
                    (posFrags (input.drop front).dropLast ++ [ advanceIO io consumed])) := by
                intro consumed hcpos hclt hcap
                constructor
                · intro p hp
                  rcases List.mem_append.1 hp with hp | hp
                  · exact hOD_good p hp
                  · rw [List.mem_singleton] at hp
                    subst hp
                    refine ⟨by dsimp only; omega, by dsimp only; omega, ?_⟩
                    dsimp only
                    have := h2.2
                    omega
                · have hmerged : List.Pairwise Disj
                      (((X ++ output.dropLast) ++ posFrags (input.drop front).dropLast) ++
                        [{ outio with size := outio.size + consumed },
                          advanceIO io consumed]) := by
                    apply pairwise_disj_merge _ [] outio io consumed ?_ (by simp)
                      h2.2 hclt hpw2
                    intro a ha
                    rcases List.mem_append.1 ha with ha | ha
                    · rcases List.mem_append.1 ha with ha | ha
                      · exact hX a ha
                      · exact (hOD_good a ha).1
                    · exact (mem_posFrags a _ ha).2
                  have hperm := perm_back_emit (X ++ output.dropLast)
                    (posFrags (input.drop front).dropLast)
                    ({ outio with size := outio.size + consumed } : IOPosBuffer)
                    ( advanceIO io consumed)
                  have := hmerged.perm hperm.symm (fun {x y} h => disj_symm h)
                  rw [show ((X ++ output.dropLast) ++
                      [({ outio with size := outio.size + consumed } : IOPosBuffer)]) ++
                      (posFrags (input.drop front).dropLast ++ [ advanceIO io consumed]) =
                    X ++ (output.dropLast ++
                      [({ outio with size := outio.size + consumed } : IOPosBuffer)]) ++
                      (posFrags (input.drop front).dropLast ++ [ advanceIO io consumed]) by
                    simp [List.append_assoc]] at this
                  exact this
              by_cases h3 : XRD_CL_MAX_CHUNK < outio.size + c
              · rw [if_pos h3] at hr
                rw [show ({ outio with size := XRD_CL_MAX_CHUNK } : IOPosBuffer) =
                    { outio with size := outio.size + (XRD_CL_MAX_CHUNK - outio.size) } by
                  rw [Nat.add_sub_cancel' (Nat.le_of_lt h2.1)]] at hr
                obtain ⟨hgo, hgp⟩ := hmergeCommon (XRD_CL_MAX_CHUNK - outio.size)
                  (by omega) (by omega) (by omega)
                exact hstep _ _ _ _ hr (by omega) (by omega) hgo hgp
              · rw [if_neg h3] at hr
                obtain ⟨hgo, hgp⟩ := hmergeCommon c hg.1 h1 (by omega)
                exact hstep _ _ _ _ hr h1 (Nat.zero_le _) hgo hgp
            · rw [if_neg h2] at hr
              apply hstep c _ 0 _ hr h1 (Nat.zero_le _)
              · intro p hp
                rcases List.mem_append.1 hp with hp | hp
                · exact hout p hp
                · rw [List.mem_singleton] at hp
                  subst hp
                  exact ⟨hg.1, hcm, by dsimp only; omega⟩
              · have hnew : List.Pairwise Disj
                    (((X ++ output) ++ posFrags (input.drop front).dropLast) ++
                      [(⟨io.offset, io.data, c⟩ : IOPosBuffer), advanceIO io c]) := by
                  apply pairwise_disj_split _ [] io _ _
                    (by dsimp only; omega) (by dsimp only; omega)
                    (by dsimp only [ advanceIO]; omega) (by dsimp only [ advanceIO]; omega)
                    (by rw [disj_iff]; left; dsimp only [ advanceIO]; omega)
                    hpw
                have hperm := perm_back_emit (X ++ output)
                  (posFrags (input.drop front).dropLast)
                  (⟨io.offset, io.data, c⟩ : IOPosBuffer) ( advanceIO io c)
                have := hnew.perm hperm.symm (fun {x y} h => disj_symm h)
                rw [show ((X ++ output) ++ [(⟨io.offset, io.data, c⟩ : IOPosBuffer)]) ++
                    (posFrags (input.drop front).dropLast ++ [ advanceIO io c]) =
                  X ++ (output ++ [(⟨io.offset, io.data, c⟩ : IOPosBuffer)]) ++
                    (posFrags (input.drop front).dropLast ++ [ advanceIO io c]) by
                  simp [List.append_assoc]] at this
                exact this
        · rw [if_neg h1] at hr
          have hdrop2 : input.dropLast.drop front = (input.drop front).dropLast := hInitEq
          by_cases h0 : io.size = 0
          · rw [if_pos h0] at hr
            have hpflive : posFrags (input.drop front) =
                posFrags (input.drop front).dropLast := by
              conv_lhs => rw [← hlived]
              rw [posFrags_append, posFrags_cons_zero _ _ h0, posFrags_nil,
                List.append_nil]
            rw [hpflive] at hpw
            apply ih _ _ _ _ _ _ hr hfd hcm hX hout
            · intro p hp
              rw [hdrop2] at hp
              exact hliveInit p hp
            · rw [hdrop2]
              exact hpw
          · rw [if_neg h0] at hr
            have hpflive : posFrags (input.drop front) =
                posFrags (input.drop front).dropLast ++ [io] := by
              conv_lhs => rw [← hlived]
              rw [posFrags_append, posFrags_singleton_pos _ (by omega)]
            rw [hpflive] at hpw
            apply ih _ _ _ _ _ _ hr hfd (by omega) hX ?_ ?_ ?_
            · intro p hp
              rcases List.mem_append.1 hp with hp | hp
              · exact hout p hp
              · rw [List.mem_singleton] at hp
                subst hp
                exact ⟨by omega, by omega, hliveio⟩
            · intro p hp
              rw [hdrop2] at hp
              exact hliveInit p hp
            · rw [hdrop2]
              have hperm := perm_snoc_mid (X ++ output)
                (posFrags (input.drop front).dropLast) io
              have hpw2 : List.Pairwise Disj
                  (((X ++ output) ++ posFrags (input.drop front).dropLast) ++ [io]) := by
                rw [show ((X ++ output) ++ posFrags (input.drop front).dropLast) ++ [io] =
                  X ++ output ++ (posFrags (input.drop front).dropLast ++ [io]) by
                  simp [List.append_assoc]]
                exact hpw
              have := hpw2.perm hperm.symm (fun {x y} h => disj_symm h)
              rw [show ((X ++ output) ++ [io]) ++ posFrags (input.drop front).dropLast =
                X ++ (output ++ [io]) ++ posFrags (input.drop front).dropLast by
                simp [List.append_assoc]] at this
              exact this
    · rw [dif_neg hg] at hr
      subst hr
      exact ⟨hout, hlive, hpw⟩

/-- Disjointness and bounds invariant of the outer split loop: from a
state whose outputs are good and pairwise disjoint (also against the live
fragments), a terminating run yields two good, pairwise-disjoint output
lists. -/
theorem splitLoopGo_disj (fuel : Nat) (H : Int) :
    ∀ front tmp req1 req2 e1 e2 chunk1 chunk2 out,
      splitLoopGo fuel front tmp req1 req2 e1 e2 chunk1 chunk2 = some out →
      front ≤ tmp.length →
      chunk1 ≤ XRD_CL_MAX_CHUNK → chunk2 ≤ XRD_CL_MAX_CHUNK →
      (∀ p ∈ req1, GoodPiece H p) → (∀ p ∈ req2, GoodPiece H p) →
      (∀ p ∈ tmp.drop front, p.offset + (p.size : Int) ≤ H) →
      List.Pairwise Disj (req2 ++ req1 ++ posFrags (tmp.drop front)) →
      (∀ p ∈ out.2.2.req1, GoodPiece H p) ∧ (∀ p ∈ out.2.2.req2, GoodPiece H p) ∧
      List.Pairwise Disj (out.2.2.req2 ++ out.2.2.req1) := by
  induction fuel with
  | zero =>
    intro front tmp req1 req2 e1 e2 c1 c2 out h
    exact absurd h (by simp [splitLoopGo])
  | succ n ih =>
    intro front tmp req1 req2 e1 e2 c1 c2 out h hf hc1 hc2 h1g h2g hliveB hpw
    rw [splitLoopGo] at h
    dsimp only at h
    by_cases hfl : front < tmp.length
    · rw [if_pos hfl] at h
      obtain ⟨h1l, h1m, h1r, _, _⟩ :=
        consumeChunkFrontGo_spec (c1 + tmp.length + 1) front tmp req1 c1 e1
          (consumeChunkFront front tmp req1 c1 e1) rfl (Nat.le_of_lt hfl)
      obtain ⟨hg1, hlive1, hpw1⟩ :=
        consumeChunkFrontGo_disj (c1 + tmp.length + 1) H req2 front tmp req1 c1 e1
          (consumeChunkFront front tmp req1 c1 e1) rfl (Nat.le_of_lt hfl) hc1
          (fun p hp => (h2g p hp).1) h1g hliveB hpw
      have hpw1' : List.Pairwise Disj
          ((consumeChunkFront front tmp req1 c1 e1).output ++ req2 ++
            posFrags ((consumeChunkFront front tmp req1 c1 e1).input.drop
              (consumeChunkFront front tmp req1 c1 e1).front)) := by
        refine hpw1.perm ?_ (fun {x y} hxy => disj_symm hxy)
        exact List.Perm.append_right _ List.perm_append_comm
      obtain ⟨h2f, h2m, h2l, _, _⟩ :=
        consumeChunkBackGo_spec
          (c2 + (consumeChunkFront front tmp req1 c1 e1).input.length + 1)
          (consumeChunkFront front tmp req1 c1 e1).front
          (consumeChunkFront front tmp req1 c1 e1).input req2 c2 e2
          (consumeChunkBack (consumeChunkFront front tmp req1 c1 e1).front
            (consumeChunkFront front tmp req1 c1 e1).input req2 c2 e2) rfl
          (by rw [h1l]; exact h1r)
      obtain ⟨hg2, hlive2, hpw2⟩ :=
        consumeChunkBackGo_disj
          (c2 + (consumeChunkFront front tmp req1 c1 e1).input.length + 1) H
          (consumeChunkFront front tmp req1 c1 e1).output
          (consumeChunkFront front tmp req1 c1 e1).front
          (consumeChunkFront front tmp req1 c1 e1).input req2 c2 e2
          (consumeChunkBack (consumeChunkFront front tmp req1 c1 e1).front
            (consumeChunkFront front tmp req1 c1 e1).input req2 c2 e2) rfl
          (by rw [h1l]; exact h1r) hc2 (fun p hp => (hg1 p hp).1) h2g hlive1 hpw1'
      have hpw2' : List.Pairwise Disj
          ((consumeChunkBack (consumeChunkFront front tmp req1 c1 e1).front
              (consumeChunkFront front tmp req1 c1 e1).input req2 c2 e2).output ++
            (consumeChunkFront front tmp req1 c1 e1).output ++
            posFrags ((consumeChunkBack (consumeChunkFront front tmp req1 c1 e1).front
              (consumeChunkFront front tmp req1 c1 e1).input req2 c2 e2).input.drop
                (consumeChunkBack (consumeChunkFront front tmp req1 c1 e1).front
                  (consumeChunkFront front tmp req1 c1 e1).input req2 c2 e2).front)) := by
        rw [h2f]
        refine hpw2.perm ?_ (fun {x y} hxy => disj_symm hxy)
        exact List.Perm.append_right _ List.perm_append_comm
      refine ih _ _ _ _ _ _ c1 c2 out h ?_ hc1 hc2 hg1 hg2 ?_ hpw2'
      · rw [h2f]
        exact h2m
      · rw [h2f]
        exact hlive2
    · rw [if_neg hfl] at h
      rw [Option.some.injEq] at h
      rw [← h]
      dsimp only
      rw [List.drop_eq_nil_of_le (Nat.le_of_not_lt hfl), posFrags_nil,
        List.append_nil] at hpw
      exact ⟨h1g, h2g, hpw⟩

/-- Pairwise-disjoint non-empty fragments, sorted by offset, have strictly
increasing offsets. -/
theorem pairwise_lt_sortByOffset (l : List IOPosBuffer)
    (hpw : List.Pairwise Disj l) (hsz : ∀ p ∈ l, 1 ≤ p.size) :
    List.Pairwise (fun a b => a.offset < b.offset) (sortByOffset l) := by
  haveI : IsTotal IOPosBuffer (fun a b => a.offset ≤ b.offset) :=
    ⟨fun a b => Int.le_total a.offset b.offset⟩
  haveI : IsTrans IOPosBuffer (fun a b => a.offset ≤ b.offset) :=
    ⟨fun a b c h1 h2 => le_trans h1 h2⟩
  have hsorted : List.Sorted (fun a b => a.offset ≤ b.offset) (sortByOffset l) :=
    List.sorted_insertionSort _ l
  have hperm : List.Perm (sortByOffset l) l := List.perm_insertionSort _ l
  have hpw' : List.Pairwise Disj (sortByOffset l) :=
    hpw.perm hperm.symm (fun {x y} h => disj_symm h)
  have hsz' : ∀ p ∈ sortByOffset l, 1 ≤ p.size := fun p hp => hsz p (hperm.subset hp)
  have hand := List.Pairwise.and hsorted hpw'
  apply List.Pairwise.imp_of_mem ?_ hand
  intro a b ha hb hab
  obtain ⟨hle, hd⟩ := hab
  rw [disj_iff] at hd
  have h1 := hsz' a ha
  have h2 := hsz' b hb
  omega

/-- C2, counterexample: the validation properties do not hold for
arbitrary scatter lists.  With equal qualities (`chunk1 = chunk2 =
262144`), splitting the 2-fragment list `[(0,1), (0,1)]` (duplicate
offsets) yields `req1` with offsets `0, 0` — not strictly increasing (in
the C++ this run aborts in `validateList`'s assertion); and splitting
`[(2^41,1), (2^41+1,1)]` yields output offsets at and above `2^41`. -/
theorem splitClientRequest_validation_counterexample :
    (splitClientRequest 262144 262144 [⟨0, 0, 1⟩, ⟨0, 0, 1⟩] =
        some ⟨[⟨0, 0, 1⟩, ⟨0, 0, 1⟩], [], true, false⟩ ∧
      ¬ List.Pairwise (fun a b : IOPosBuffer => a.offset < b.offset)
          [(⟨0, 0, 1⟩ : IOPosBuffer), ⟨0, 0, 1⟩]) ∧
    (splitClientRequest 262144 262144 [⟨2199023255552, 0, 1⟩, ⟨2199023255553, 0, 1⟩] =
        some ⟨[⟨2199023255552, 0, 1⟩, ⟨2199023255553, 0, 1⟩], [], true, false⟩ ∧
      ¬ ∀ p ∈ [(⟨2199023255552, 0, 1⟩ : IOPosBuffer), ⟨2199023255553, 0, 1⟩],
          p.offset < 2 ^ 41) :=
  ⟨⟨rfl, by decide⟩, ⟨rfl, by decide⟩⟩

/-- C2 (amended): for a scatter list of at least 2 fragments whose
fragments are pairwise non-overlapping and lie below `2^41`
(`offset + size ≤ 2^41`), and chunk budgets within `XRD_CL_MAX_CHUNK`
(which the quality-weighted float computation guarantees), every fragment
of each output list of a terminating `splitClientRequest` has size at most
`XRD_CL_MAX_CHUNK = 512 KiB` and offset below `2^41`, and within each
output list (after the final sort) offsets are strictly increasing. -/
theorem splitClientRequest_validates (chunk1 chunk2 : Nat) (iolist : List IOPosBuffer)
    (res : SplitResult)
    (hc1 : chunk1 ≤ XRD_CL_MAX_CHUNK) (hc2 : chunk2 ≤ XRD_CL_MAX_CHUNK)
    (hlen : 2 ≤ iolist.length)
    (hdisj : List.Pairwise Disj iolist)
    (hbound : ∀ f ∈ iolist, f.offset + (f.size : Int) ≤ 2 ^ 41)
    (hres : splitClientRequest chunk1 chunk2 iolist = some res) :
    (∀ p ∈ res.req1, p.size ≤ XRD_CL_MAX_CHUNK ∧ p.offset < 2 ^ 41) ∧
    (∀ p ∈ res.req2, p.size ≤ XRD_CL_MAX_CHUNK ∧ p.offset < 2 ^ 41) ∧
    List.Pairwise (fun a b => a.offset < b.offset) res.req1 ∧
    List.Pairwise (fun a b => a.offset < b.offset) res.req2 := by
  rw [splitClientRequest] at hres
  rw [if_neg (by omega)] at hres
  revert hres
  cases hloop : splitLoopGo (sumSize iolist + iolist.length + 1) 0 iolist [] [] false false
      chunk1 chunk2 with
  | none => intro hres; exact absurd hres (by simp)
  | some out =>
    intro hres
    rw [Option.some.injEq] at hres
    obtain ⟨hg1, hg2, hpwf⟩ :=
      splitLoopGo_disj _ (2 ^ 41) _ _ _ _ _ _ _ _ _ hloop (Nat.zero_le _) hc1 hc2
        (by simp) (by simp) (by rw [List.drop_zero]; exact hbound)
        (by
          rw [List.drop_zero]
          simp only [List.nil_append]
          exact List.Pairwise.sublist (List.filter_sublist _) hdisj)
    have hpw2 : List.Pairwise Disj out.2.2.req2 := (List.pairwise_append.1 hpwf).1
    have hpw1 : List.Pairwise Disj out.2.2.req1 := (List.pairwise_append.1 hpwf).2.1
    rw [← hres]
    dsimp only
    refine ⟨?_, ?_, ?_, ?_⟩
    · intro p hp
      have hp' : p ∈ out.2.2.req1 := (List.perm_insertionSort _ _).subset hp
      obtain ⟨hs1, hs2, hs3⟩ := hg1 p hp'
      exact ⟨hs2, by omega⟩
    · intro p hp
      have hp' : p ∈ out.2.2.req2 := (List.perm_insertionSort _ _).subset hp
      obtain ⟨hs1, hs2, hs3⟩ := hg2 p hp'
      exact ⟨hs2, by omega⟩
    · exact pairwise_lt_sortByOffset _ hpw1 (fun p hp => (hg1 p hp).1)
    · exact pairwise_lt_sortByOffset _ hpw2 (fun p hp => (hg2 p hp).1)

/-- C2 (amended), witness: the split of the disjoint list
`[(0,3), (10,4)]` with budgets 2/2 — all output fragments capped and below
`2^41`, both output lists strictly increasing. -/
theorem splitClientRequest_validates_witness :
    (∀ p ∈ [(⟨0, 0, 2⟩ : IOPosBuffer), ⟨2, 2, 1⟩, ⟨12, 12, 1⟩],
      p.size ≤ XRD_CL_MAX_CHUNK ∧ p.offset < 2 ^ 41) ∧
    (∀ p ∈ [(⟨10, 10, 2⟩ : IOPosBuffer), ⟨13, 13, 1⟩],
      p.size ≤ XRD_CL_MAX_CHUNK ∧ p.offset < 2 ^ 41) ∧
    List.Pairwise (fun a b : IOPosBuffer => a.offset < b.offset)
      [(⟨0, 0, 2⟩ : IOPosBuffer), ⟨2, 2, 1⟩, ⟨12, 12, 1⟩] ∧
    List.Pairwise (fun a b : IOPosBuffer => a.offset < b.offset)
      [(⟨10, 10, 2⟩ : IOPosBuffer), ⟨13, 13, 1⟩] :=
  splitClientRequest_validates 2 2 [⟨0, 0, 3⟩, ⟨10, 10, 4⟩]
    ⟨[⟨0, 0, 2⟩, ⟨2, 2, 1⟩, ⟨12, 12, 1⟩], [⟨10, 10, 2⟩, ⟨13, 13, 1⟩], true, true⟩
    (by decide) (by decide) (by decide) (by decide) (by decide) rfl


/-- Moving the head of a list to the back is a permutation. -/
theorem perm_cons_snoc {α : Type} (a : α) (l : List α) : List.Perm (a :: l) (l ++ [a]) := by
  have h : a :: l = [a] ++ l := rfl
  rw [h]
  exact List.perm_append_comm

/-- Erasing index `i` and re-appending the erased element permutes the list. -/
theorem perm_eraseIdx_get (l : List Source) (i : Nat) (h : i < l.length) :
    List.Perm l (l.eraseIdx i ++ [l.get ⟨i, h⟩]) := by
  rw [List.get_eq_getElem]
  conv_lhs => rw [← List.take_append_drop i l]
  rw [List.eraseIdx_eq_take_drop_succ, List.drop_eq_getElem_cons h]
  exact List.perm_middle.trans (perm_cons_snoc _ _)

/-- When some element satisfies `p`, `eraseP p` removes exactly one such
element: re-appending it permutes the list. -/
theorem perm_eraseP_of_mem (l : List Source) (p : Source → Bool) (x : Source)
    (hx : x ∈ l) (hpx : p x = true) :
    ∃ y, p y = true ∧ List.Perm l (l.eraseP p ++ [y]) := by
  obtain ⟨y, l₁, l₂, _, hpy, hl, he⟩ := List.exists_of_eraseP hx hpx
  refine ⟨y, hpy, ?_⟩
  rw [he, hl]
  exact List.perm_middle.trans (perm_cons_snoc _ _)

/-- Moving one element between the active block and the inactive block
preserves (and reflects) freedom from duplicates. -/
theorem nodup_swap_pos (A I D : List Nat) (t : Nat) :
    ((A ++ [t]) ++ I ++ D).Nodup ↔ (A ++ (I ++ [t]) ++ D).Nodup := by
  have hp : List.Perm ((A ++ [t]) ++ I ++ D) (A ++ (I ++ [t]) ++ D) := by
    rw [List.perm_iff_count]; intro a
    simp [List.count_append, List.count_cons]
    omega
  exact hp.nodup_iff

/-- Exchanging one element of the active block against one of the inactive
block preserves freedom from duplicates. -/
theorem nodup_swap_two (A I D : List Nat) (x y : Nat)
    (h : ((A ++ [x]) ++ (I ++ [y]) ++ D).Nodup) : ((A ++ [y]) ++ (I ++ [x]) ++ D).Nodup := by
  have hp : List.Perm ((A ++ [y]) ++ (I ++ [x]) ++ D) ((A ++ [x]) ++ (I ++ [y]) ++ D) := by
    rw [List.perm_iff_count]; intro a
    simp [List.count_append, List.count_cons]
    omega
  exact hp.nodup_iff.mpr h

/-- Moving one element from the back of the active block to the back of the
disabled block preserves freedom from duplicates. -/
theorem nodup_retire (A I D : List Nat) (t : Nat)
    (h : ((A ++ [t]) ++ I ++ D).Nodup) : (A ++ I ++ (D ++ [t])).Nodup := by
  have hp : List.Perm (A ++ I ++ (D ++ [t])) ((A ++ [t]) ++ I ++ D) := by
    rw [List.perm_iff_count]; intro a
    simp [List.count_append, List.count_cons]
    omega
  exact hp.nodup_iff.mpr h

/-- Appending a fresh element to the active block keeps the three blocks
duplicate-free. -/
theorem nodup_insert_fresh_active (A I D : List Nat) (t : Nat)
    (hN : (A ++ I ++ D).Nodup) (ht : t ∉ A ++ I ++ D) :
    ((A ++ [t]) ++ I ++ D).Nodup := by
  have hp : List.Perm ((A ++ [t]) ++ I ++ D) (t :: (A ++ I ++ D)) := by
    rw [List.perm_iff_count]; intro a
    simp [List.count_append, List.count_cons]
    omega
  exact hp.nodup_iff.mpr (List.nodup_cons.mpr ⟨ht, hN⟩)

/-- Appending a fresh element to the inactive block keeps the three blocks
duplicate-free. -/
theorem nodup_insert_fresh_inactive (A I D : List Nat) (t : Nat)
    (hN : (A ++ I ++ D).Nodup) (ht : t ∉ A ++ I ++ D) :
    (A ++ (I ++ [t]) ++ D).Nodup :=
  (nodup_swap_pos A I D t).mp (nodup_insert_fresh_active A I D t hN ht)

/-- Appending a fresh element to the disabled block keeps the three blocks
duplicate-free. -/
theorem nodup_insert_fresh_disabled (A I D : List Nat) (t : Nat)
    (hN : (A ++ I ++ D).Nodup) (ht : t ∉ A ++ I ++ D) :
    (A ++ I ++ (D ++ [t])).Nodup :=
  nodup_retire A I D t (nodup_insert_fresh_active A I D t hN ht)

/-- The running minimum of the quality fold is among the candidates. -/
theorem foldl_minq_mem (xs : List Source) (m : Source) :
    xs.foldl (fun m s => if s.quality < m.quality then s else m) m ∈ m :: xs := by
  induction xs generalizing m with
  | nil => exact List.mem_singleton.mpr rfl
  | cons s t ih =>
    have h := ih (if s.quality < m.quality then s else m)
    rw [List.foldl_cons]
    rcases List.mem_cons.mp h with h1 | h2
    · rw [h1]
      by_cases hq : s.quality < m.quality
      · rw [if_pos hq]; exact List.mem_cons_of_mem _ (List.mem_cons_self _ _)
      · rw [if_neg hq]; exact List.mem_cons_self _ _
    · exact List.mem_cons_of_mem _ (List.mem_cons_of_mem _ h2)

/-- `std::min_element` returns an element of the list. -/
theorem firstMinQ_mem (l : List Source) (b : Source) (h : firstMinQ l = some b) : b ∈ l := by
  cases l with
  | nil => exact absurd h (by rw [firstMinQ]; exact Option.noConfusion)
  | cons x xs =>
    rw [firstMinQ] at h
    have hb := Option.some.inj h
    rw [← hb]
    exact foldl_minq_mem xs x

/-- The accumulator loop of `firstMaxQIdx` returns its accumulator or an
indexed element of the remaining list. -/
theorem firstMaxQIdxGo_spec (t : List Source) :
    ∀ (i bi : Nat) (b : Source),
      firstMaxQIdxGo t i bi b = (bi, b) ∨
      (∃ k, ∃ hk : k < t.length, firstMaxQIdxGo t i bi b = (i + k, t.get ⟨k, hk⟩)) := by
  induction t with
  | nil => intro i bi b; exact Or.inl rfl
  | cons s t ih =>
    intro i bi b
    rw [firstMaxQIdxGo]
    by_cases hq : b.quality < s.quality
    · rw [if_pos hq]
      rcases ih (i + 1) i s with h1 | ⟨k, hk, h2⟩
      · refine Or.inr ⟨0, by simp, ?_⟩
        rw [h1]
        simp [List.get]
      · refine Or.inr ⟨k + 1, by simpa using Nat.succ_lt_succ hk, ?_⟩
        rw [h2]
        have : i + 1 + k = i + (k + 1) := by omega
        rw [this]
        rfl
    · rw [if_neg hq]
      rcases ih (i + 1) bi b with h1 | ⟨k, hk, h2⟩
      · exact Or.inl h1
      · refine Or.inr ⟨k + 1, by simpa using Nat.succ_lt_succ hk, ?_⟩
        rw [h2]
        have : i + 1 + k = i + (k + 1) := by omega
        rw [this]
        rfl

/-- `std::max_element` returns a valid index together with the element at
that index. -/
theorem firstMaxQIdx_spec (l : List Source) (wi : Nat) (w : Source)
    (h : firstMaxQIdx l = some (wi, w)) :
    ∃ hw : wi < l.length, l.get ⟨wi, hw⟩ = w := by
  cases l with
  | nil => exact absurd h (by rw [firstMaxQIdx]; exact Option.noConfusion)
  | cons x xs =>
    rw [firstMaxQIdx] at h
    have hb := Option.some.inj h
    rcases firstMaxQIdxGo_spec xs 1 0 x with h1 | ⟨k, hk, h2⟩
    · obtain ⟨rfl, rfl⟩ := Prod.mk.inj (h1.symm.trans hb)
      exact ⟨Nat.succ_pos _, rfl⟩
    · rw [Nat.add_comm 1 k] at h2
      obtain ⟨rfl, rfl⟩ := Prod.mk.inj (h2.symm.trans hb)
      exact ⟨Nat.succ_lt_succ hk, rfl⟩

/-- `compareSources` preserves the disjointness of the three source
collections: a demotion moves the demoted source from `activeSources` to
the back of `inactiveSources`. -/
theorem compareSources_keeps_disjoint (st : RMState) (now : Timespec) (a b : Nat)
    (h : collectionsDisjoint st) : collectionsDisjoint (compareSources st now a b).2 := by
  by_cases hlen : st.activeSources.length < max a b + 1
  · rw [compareSources, dif_pos hlen]
    exact h
  · have ha : a < st.activeSources.length :=
      Nat.lt_of_lt_of_le (Nat.lt_succ_of_le (Nat.le_max_left a b)) (Nat.le_of_not_lt hlen)
    rw [compareSources, dif_neg hlen]
    dsimp only
    split
    · unfold collectionsDisjoint sourceTags at h ⊢
      rw [List.map_append, List.map_append] at h
      dsimp only
      rw [List.map_append, List.map_append, List.map_append, List.map_cons, List.map_nil]
      have hperm1 : List.Perm (st.activeSources.map Source.tag)
          ((st.activeSources.eraseIdx a).map Source.tag ++
            [(st.activeSources.get ⟨a, ha⟩).tag]) := by
        have hp := (perm_eraseIdx_get st.activeSources a ha).map Source.tag
        rw [List.map_append, List.map_cons, List.map_nil] at hp
        exact hp
      have hN' : (((st.activeSources.eraseIdx a).map Source.tag ++
            [(st.activeSources.get ⟨a, ha⟩).tag]) ++
          st.inactiveSources.map Source.tag ++ st.disabledSources.map Source.tag).Nodup :=
        (List.Perm.nodup_iff
          ((hperm1.symm.append_right _).append_right _)).mpr h
      exact (nodup_swap_pos _ _ _ _).mp hN'
    · exact h

/-- `handleOpen` preserves the disjointness of the three source collections
whenever the merged source is a fresh object (as every source produced by
an asynchronous open is). -/
theorem handleOpen_keeps_disjoint (st : RMState) (ok : Bool) (source : Source)
    (h : collectionsDisjoint st) (hfresh : source.tag ∉ sourceTags st) :
    collectionsDisjoint (handleOpen st ok source) := by
  unfold collectionsDisjoint sourceTags at h ⊢
  unfold sourceTags at hfresh
  rw [List.map_append, List.map_append] at h hfresh
  rw [handleOpen]
  dsimp only
  split
  · split
    · dsimp only
      rw [List.map_append, List.map_append]
      exact h
    · split
      · dsimp only
        rw [List.map_append, List.map_append]
        exact h
      · split
        · dsimp only
          rw [List.map_append, List.map_append, List.map_append, List.map_cons, List.map_nil]
          exact nodup_insert_fresh_active _ _ _ _ h hfresh
        · dsimp only
          rw [List.map_append, List.map_append, List.map_append, List.map_cons, List.map_nil]
          exact nodup_insert_fresh_inactive _ _ _ _ h hfresh
  · dsimp only
    rw [List.map_append, List.map_append]
    exact h

/-- `std::set::insert` either leaves the set unchanged (the tag is present)
or appends the new element (the tag is absent). -/
theorem insertSource_eq (s : Source) (l : List Source) :
    (insertSource s l = l ∧ s.tag ∈ l.map Source.tag) ∨
    (insertSource s l = l ++ [s] ∧ s.tag ∉ l.map Source.tag) := by
  rw [insertSource]
  by_cases hd : (l.any fun t => decide (t.tag = s.tag)) = true
  · rw [if_pos hd]
    obtain ⟨t, ht, hts⟩ := List.any_eq_true.mp hd
    exact Or.inl ⟨rfl, List.mem_map.mpr ⟨t, ht, of_decide_eq_true hts⟩⟩
  · rw [if_neg hd]
    refine Or.inr ⟨rfl, fun hmem => ?_⟩
    obtain ⟨t, ht, hts⟩ := List.mem_map.mp hmem
    exact hd (List.any_eq_true.mpr ⟨t, ht, decide_eq_true hts⟩)

/-- `requestFailure` preserves the disjointness of the three source
collections provided the failing source is not parked in
`inactiveSources` (there it would not be removed), at most two sources are
active, and a source delivered by the recovery open is fresh. -/
theorem requestFailure_keeps_disjoint (st : RMState) (now : Timespec) (src : Source)
    (code : StatusCode) (oo : OpenOutcome)
    (h : collectionsDisjoint st)
    (hlen : st.activeSources.length ≤ 2)
    (hin : ∀ s ∈ st.inactiveSources, s.tag ≠ src.tag)
    (hns : ∀ ns, oo = OpenOutcome.opened ns → ns.tag ∉ sourceTags st ∧ ns.tag ≠ src.tag) :
    collectionsDisjoint (requestFailure st now src code oo).1 := by
  by_cases hcode : code = StatusCode.errInvalidResponse
  · rw [requestFailure, if_pos hcode]
    exact h
  obtain ⟨act, inact, dis, diss, lsc, nasc, tog⟩ := st
  unfold collectionsDisjoint sourceTags at h ⊢
  unfold sourceTags at hns
  dsimp only at h hlen hin hns ⊢
  simp only [List.map_append] at h hns
  have hTI : src.tag ∉ inact.map Source.tag := by
    intro hmem
    obtain ⟨s, hs, ht⟩ := List.mem_map.mp hmem
    exact hin s hs ht
  rw [requestFailure, if_neg hcode]
  dsimp only
  rcases insertSource_eq src dis with ⟨he, hd⟩ | ⟨he, hd⟩
  · -- src already disabled: its tag is in dis, hence in no other collection
    rw [he]
    have hTA : src.tag ∉ act.map Source.tag := by
      intro hmem
      exact (List.nodup_append.mp h).2.2 (List.mem_append.mpr (Or.inl hmem)) hd
    cases act with
    | nil =>
      dsimp only
      rw [dif_pos (show ([] : List Source).length = 0 from rfl)]
      cases oo with
      | timeout =>
        dsimp only
        simp only [List.map_append]
        exact h
      | failed =>
        dsimp only
        simp only [List.map_append]
        exact h
      | opened ns =>
        dsimp only
        obtain ⟨hns1, hns2⟩ := hns ns rfl
        by_cases hid : ns.id ∈ insertString src.id diss
        · rw [if_pos hid]
          dsimp only
          simp only [List.map_append]
          exact h
        · rw [if_neg hid]
          dsimp only
          simp only [List.map_append, List.map_cons, List.map_nil]
          refine nodup_insert_fresh_active _ _ _ _ h ?_
          exact hns1
    | cons s0 rest =>
      dsimp only
      by_cases h0 : s0.tag = src.tag
      · exact absurd (List.mem_map.mpr ⟨s0, List.mem_cons_self _ _, h0⟩) hTA
      · simp only [if_neg h0]
        cases rest with
        | nil =>
          rw [dif_neg (by simp)]
          dsimp only
          simp only [List.map_append]
          exact h
        | cons s1 rest2 =>
          cases rest2 with
          | cons s2 rest3 => simp at hlen
          | nil =>
            by_cases h1 : s1.tag = src.tag
            · exact absurd (List.mem_map.mpr
                ⟨s1, List.mem_cons_of_mem _ (List.mem_cons_self _ _), h1⟩) hTA
            · simp only [if_neg h1]
              rw [dif_neg (by simp)]
              dsimp only
              simp only [List.map_append]
              exact h
  · -- src not yet disabled: it is appended to the disabled collection
    rw [he]
    cases act with
    | nil =>
      dsimp only
      rw [dif_pos (show ([] : List Source).length = 0 from rfl)]
      have hfresh : src.tag ∉ (List.map Source.tag ([] : List Source) ++
          inact.map Source.tag ++ dis.map Source.tag) := by
        intro hmem
        rcases List.mem_append.mp hmem with hm | hm
        · rcases List.mem_append.mp hm with hm' | hm'
          · exact absurd hm' (by simp)
          · exact hTI hm'
        · exact hd hm
      have h2 : (List.map Source.tag ([] : List Source) ++ inact.map Source.tag ++
          (dis.map Source.tag ++ [src.tag])).Nodup :=
        nodup_insert_fresh_disabled _ _ _ _ h hfresh
      cases oo with
      | timeout =>
        dsimp only
        simp only [List.map_append, List.map_cons, List.map_nil]
        exact h2
      | failed =>
        dsimp only
        simp only [List.map_append, List.map_cons, List.map_nil]
        exact h2
      | opened ns =>
        dsimp only
        obtain ⟨hns1, hns2⟩ := hns ns rfl
        by_cases hid : ns.id ∈ insertString src.id diss
        · rw [if_pos hid]
          dsimp only
          simp only [List.map_append, List.map_cons, List.map_nil]
          exact h2
        · rw [if_neg hid]
          dsimp only
          simp only [List.map_append, List.map_cons, List.map_nil]
          refine nodup_insert_fresh_active _ _ _ _ h2 ?_
          intro hmem
          rcases List.mem_append.mp hmem with hm | hm
          · rcases List.mem_append.mp hm with hm' | hm'
            · exact absurd hm' (by simp)
            · exact hns1 (List.mem_append.mpr (Or.inl (List.mem_append.mpr (Or.inr hm'))))
          · rcases List.mem_append.mp hm with hm' | hm'
            · exact hns1 (List.mem_append.mpr (Or.inr hm'))
            · exact hns2 (List.mem_singleton.mp hm')
    | cons s0 rest =>
      dsimp only
      by_cases h0 : s0.tag = src.tag
      · -- the failing source is the first active one: it is removed
        simp only [if_pos h0]
        simp only [List.map_cons] at h
        rw [h0] at h
        rw [List.cons_append, List.cons_append] at h
        have hcons := List.nodup_cons.mp h
        have hN1 : (rest.map Source.tag ++ inact.map Source.tag ++
            (dis.map Source.tag ++ [src.tag])).Nodup :=
          nodup_insert_fresh_disabled _ _ _ _ hcons.2 hcons.1
        cases rest with
        | nil =>
          rw [dif_pos (show ([] : List Source).length = 0 from rfl)]
          cases oo with
          | timeout =>
            dsimp only
            simp only [List.map_append, List.map_cons, List.map_nil]
            exact hN1
          | failed =>
            dsimp only
            simp only [List.map_append, List.map_cons, List.map_nil]
            exact hN1
          | opened ns =>
            dsimp only
            obtain ⟨hns1, hns2⟩ := hns ns rfl
            by_cases hid : ns.id ∈ insertString src.id diss
            · rw [if_pos hid]
              dsimp only
              simp only [List.map_append, List.map_cons, List.map_nil]
              exact hN1
            · rw [if_neg hid]
              dsimp only
              simp only [List.map_append, List.map_cons, List.map_nil]
              refine nodup_insert_fresh_active _ _ _ _ hN1 ?_
              intro hmem
              rcases List.mem_append.mp hmem with hm | hm
              · rcases List.mem_append.mp hm with hm' | hm'
                · exact absurd hm' (by simp)
                · exact hns1 (List.mem_append.mpr (Or.inl (List.mem_append.mpr (Or.inr hm'))))
              · rcases List.mem_append.mp hm with hm' | hm'
                · exact hns1 (List.mem_append.mpr (Or.inr hm'))
                · exact hns2 (List.mem_singleton.mp hm')
        | cons s1 rest2 =>
          rw [dif_neg (by simp)]
          dsimp only
          simp only [List.map_append, List.map_cons, List.map_nil]
          exact hN1
      · simp only [if_neg h0]
        cases rest with
        | nil =>
          rw [dif_neg (by simp)]
          dsimp only
          simp only [List.map_append, List.map_cons, List.map_nil]
          refine nodup_insert_fresh_disabled _ _ _ _ ?_ ?_
          · simp only [List.map_append, List.map_cons, List.map_nil] at h
            exact h
          · intro hmem
            rcases List.mem_append.mp hmem with hm | hm
            · rcases List.mem_append.mp hm with hm' | hm'
              · rcases List.mem_cons.mp hm' with he' | he'
                · exact h0 he'.symm
                · exact absurd he' (List.not_mem_nil _)
              · exact hTI hm'
            · exact hd hm
        | cons s1 rest2 =>
          cases rest2 with
          | cons s2 rest3 => simp at hlen
          | nil =>
            by_cases h1 : s1.tag = src.tag
            · -- the failing source is the second active one
              simp only [if_pos h1]
              rw [dif_neg (by simp)]
              dsimp only
              simp only [List.map_append, List.map_cons, List.map_nil] at h ⊢
              rw [h1] at h
              exact nodup_retire [s0.tag] _ _ src.tag h
            · simp only [if_neg h1]
              rw [dif_neg (by simp)]
              dsimp only
              simp only [List.map_append, List.map_cons, List.map_nil] at h ⊢
              refine nodup_insert_fresh_disabled _ _ _ _ h ?_
              intro hmem
              rcases List.mem_append.mp hmem with hm | hm
              · rcases List.mem_append.mp hm with hm' | hm'
                · rcases List.mem_cons.mp hm' with he' | he'
                  · exact h0 he'.symm
                  · rcases List.mem_cons.mp he' with he2 | he2
                    · exact h1 he2.symm
                    · exact absurd he2 (List.not_mem_nil _)
                · exact hTI hm'
              · exact hd hm

/-- `compareSources` never touches `disabledSources`. -/
theorem compareSources_disabled (st : RMState) (now : Timespec) (a b : Nat) :
    (compareSources st now a b).2.disabledSources = st.disabledSources := by
  rw [compareSources]
  split
  · rfl
  · dsimp only
    split
    · rfl
    · rfl

/-- Disjointness of an `if` between two states follows from disjointness
of both branches. -/
theorem collectionsDisjoint_ite (c : Prop) [Decidable c] (s1 s2 : RMState)
    (h1 : collectionsDisjoint s1) (h2 : collectionsDisjoint s2) :
    collectionsDisjoint (if c then s1 else s2) := by
  split
  · exact h1
  · exact h2

/-- Each iteration of the quality swap loop exchanges the best eligible
inactive source against the worst active source, preserving the
disjointness of the collections (`D` is the fixed disabled block). -/
theorem swapLoopGo_keeps_disjoint (D : List Nat) (fuel : Nat) :
    ∀ (active inactive eligible : List Source) (now : Timespec),
      (∀ s ∈ eligible, s ∈ inactive) →
      (active.map Source.tag ++ inactive.map Source.tag ++ D).Nodup →
      ((swapLoopGo fuel active inactive eligible now).1.map Source.tag ++
        (swapLoopGo fuel active inactive eligible now).2.map Source.tag ++ D).Nodup := by
  induction fuel with
  | zero =>
    intro active inactive eligible now _ hN
    simp only [swapLoopGo]
    exact hN
  | succ fuel ih =>
    intro active inactive eligible now hsub hN
    simp only [swapLoopGo]
    cases hm : firstMinQ eligible with
    | none =>
      dsimp only
      exact hN
    | some best =>
      cases hx : firstMaxQIdx active with
      | none =>
        dsimp only
        exact hN
      | some p =>
        obtain ⟨wi, worst⟩ := p
        dsimp only
        by_cases hq : best.quality + XRD_ADAPTOR_SOURCE_QUALITY_FUDGE < worst.quality
        · simp only [if_pos hq]
          apply ih
          · intro s hs
            exact (List.mem_filter.mp hs).1
          · obtain ⟨hwlt, hwget⟩ := firstMaxQIdx_spec active wi worst hx
            have hbm : best ∈ inactive := hsub best (firstMinQ_mem _ _ hm)
            obtain ⟨y, hpy, hpermI⟩ :=
              perm_eraseP_of_mem inactive (fun s => decide (s.tag = best.tag)) best hbm
                (decide_eq_true rfl)
            have hyt : y.tag = best.tag := of_decide_eq_true hpy
            have hpermA : List.Perm (active.map Source.tag)
                ((active.eraseIdx wi).map Source.tag ++ [worst.tag]) := by
              have hp := (perm_eraseIdx_get active wi hwlt).map Source.tag
              rw [hwget] at hp
              simp only [List.map_append, List.map_cons, List.map_nil] at hp
              exact hp
            have hpermI' : List.Perm (inactive.map Source.tag)
                ((inactive.eraseP fun s => decide (s.tag = best.tag)).map Source.tag ++
                  [best.tag]) := by
              have hp := hpermI.map Source.tag
              simp only [List.map_append, List.map_cons, List.map_nil] at hp
              rw [hyt] at hp
              exact hp
            have hN' : (((active.eraseIdx wi).map Source.tag ++ [worst.tag]) ++
                ((inactive.eraseP fun s => decide (s.tag = best.tag)).map Source.tag ++
                  [best.tag]) ++ D).Nodup :=
              (List.Perm.nodup_iff
                ((hpermA.symm.append hpermI'.symm).append_right D)).mpr hN
            have hN2 := nodup_swap_two _ _ _ _ _ hN'
            simp only [List.map_append, List.map_cons, List.map_nil]
            exact hN2
        · simp only [if_neg hq]
          exact hN

/-- The comparison/demotion/promotion body of `checkSourcesImpl` preserves
the disjointness of the three source collections. -/
theorem checkSourcesImplCore_keeps_disjoint (st : RMState) (now : Timespec) (r : Nat)
    (h : collectionsDisjoint st) : collectionsDisjoint (checkSourcesImplCore st now r).1 := by
  rw [checkSourcesImplCore]
  dsimp only
  by_cases hlen : st.activeSources.length ≤ 1
  · simp only [if_pos hlen]
    rw [if_pos trivial]
    exact h
  · simp only [if_neg hlen]
    have h1 := compareSources_keeps_disjoint st now 0 1 h
    have h2 := compareSources_keeps_disjoint _ now 1 0 h1
    have hd2 : (compareSources (compareSources st now 0 1).2 now 1 0).2.disabledSources =
        st.disabledSources := by
      rw [compareSources_disabled, compareSources_disabled]
    unfold collectionsDisjoint sourceTags at h2
    simp only [List.map_append] at h2
    rw [hd2] at h2
    cases hm : firstMinQ (((compareSources (compareSources st now 0 1).2 now 1
        0).2.inactiveSources).filter (eligibleShort now)) with
    | none =>
      dsimp only
      refine collectionsDisjoint_ite _ _ _ ?_ ?_ <;>
        · unfold collectionsDisjoint sourceTags
          simp only [List.map_append]
          exact h2
    | some best =>
      dsimp only
      have hsub : ∀ s ∈ ((compareSources (compareSources st now 0 1).2 now
          1 0).2.inactiveSources).filter (eligibleShort now),
          s ∈ (compareSources (compareSources st now 0 1).2 now 1 0).2.inactiveSources :=
        fun s hs => (List.mem_filter.mp hs).1
      by_cases hl1 : (compareSources (compareSources st now 0 1).2 now 1 0).2.activeSources.length = 1
      · simp only [if_pos hl1]
        have hbm : best ∈ (compareSources (compareSources st now 0 1).2 now 1 0).2.inactiveSources :=
          hsub best (firstMinQ_mem _ _ hm)
        obtain ⟨y, hpy, hpermI⟩ :=
          perm_eraseP_of_mem _ (fun s => decide (s.tag = best.tag)) best hbm (decide_eq_true rfl)
        have hyt : y.tag = best.tag := of_decide_eq_true hpy
        have hpermI' : List.Perm
            ((compareSources (compareSources st now 0 1).2 now 1 0).2.inactiveSources.map Source.tag)
            (((compareSources (compareSources st now 0 1).2 now 1
                0).2.inactiveSources.eraseP fun s => decide (s.tag = best.tag)).map Source.tag ++
              [best.tag]) := by
          have hp := hpermI.map Source.tag
          simp only [List.map_append, List.map_cons, List.map_nil] at hp
          rw [hyt] at hp
          exact hp
        have hN' := (List.Perm.nodup_iff
          ((((List.Perm.refl ((compareSources (compareSources st now 0 1).2 now 1
              0).2.activeSources.map Source.tag)).append hpermI'.symm).append_right
            (st.disabledSources.map Source.tag)))).mpr h2
        have hN2 := (nodup_swap_pos _ _ _ _).mpr hN'
        refine collectionsDisjoint_ite _ _ _ ?_ ?_ <;>
          · unfold collectionsDisjoint sourceTags
            simp only [List.map_append, List.map_cons, List.map_nil]
            exact hN2
      · simp only [if_neg hl1]
        have hswap := swapLoopGo_keeps_disjoint (st.disabledSources.map Source.tag)
          ((compareSources (compareSources st now 0 1).2 now 1 0).2.inactiveSources.length + 1)
          (compareSources (compareSources st now 0 1).2 now 1 0).2.activeSources
          (compareSources (compareSources st now 0 1).2 now 1 0).2.inactiveSources
          (((compareSources (compareSources st now 0 1).2 now
            1 0).2.inactiveSources).filter (eligibleShort now)) now hsub h2
        refine collectionsDisjoint_ite _ _ _ ?_ ?_ <;>
          · unfold collectionsDisjoint sourceTags
            simp only [List.map_append]
            exact hswap

/-- `checkSourcesImpl` preserves the disjointness of the three source
collections. -/
theorem checkSourcesImpl_keeps_disjoint (st : RMState) (now : Timespec) (r : Nat)
    (h : collectionsDisjoint st) : collectionsDisjoint (checkSourcesImpl st now r).1 := by
  rw [checkSourcesImpl]
  exact checkSourcesImplCore_keeps_disjoint st now r h

/-- C4, counterexample: `requestFailure` inserts the failing source into
`disabledSources` but removes it only from `activeSources` — a failing
source parked in `inactiveSources` (demoted while its request was in
flight) afterwards belongs to `inactiveSources` *and* `disabledSources`,
violating the pairwise-disjointness of the collections. -/
theorem requestFailure_disabled_overlap_counterexample :
    collectionsDisjoint
      (⟨[⟨"b:1094", 20, ⟨0, 0⟩, 2⟩], [⟨"a:1094", 10, ⟨0, 0⟩, 1⟩], [], [],
        ⟨900, 0⟩, ⟨950, 0⟩, false⟩ : RMState) ∧
    ¬ collectionsDisjoint
      (requestFailure
        ⟨[⟨"b:1094", 20, ⟨0, 0⟩, 2⟩], [⟨"a:1094", 10, ⟨0, 0⟩, 1⟩], [], [],
          ⟨900, 0⟩, ⟨950, 0⟩, false⟩
        ⟨1000, 0⟩ ⟨"a:1094", 10, ⟨0, 0⟩, 1⟩ StatusCode.otherError OpenOutcome.timeout).1 := by
  constructor
  · unfold collectionsDisjoint
    decide
  · unfold collectionsDisjoint
    decide

/-- C4 (amended): the state-mutating operations preserve the invariant
that every source object belongs to at most one of `activeSources`,
`inactiveSources`, `disabledSources` — `compareSources` and
`checkSourcesImpl` (demotion, promotion and the quality swap loop)
unconditionally, `handleOpen` for fresh source objects (every object an
asynchronous open delivers is freshly allocated), and `requestFailure`
only under the additional hypotheses that the failing source is not
parked in `inactiveSources` and at most two sources are active: a failing
source that sits in `inactiveSources` ends up in `disabledSources` as
well (see the counterexample). -/
theorem sourceCollections_remain_disjoint (st : RMState) (now : Timespec) :
    (∀ a b, collectionsDisjoint st → collectionsDisjoint (compareSources st now a b).2) ∧
    (∀ r, collectionsDisjoint st → collectionsDisjoint (checkSourcesImpl st now r).1) ∧
    (∀ ok source, collectionsDisjoint st → source.tag ∉ sourceTags st →
      collectionsDisjoint (handleOpen st ok source)) ∧
    (∀ src code oo, collectionsDisjoint st →
      st.activeSources.length ≤ 2 →
      (∀ s ∈ st.inactiveSources, s.tag ≠ src.tag) →
      (∀ ns, oo = OpenOutcome.opened ns → ns.tag ∉ sourceTags st ∧ ns.tag ≠ src.tag) →
      collectionsDisjoint (requestFailure st now src code oo).1) :=
  ⟨fun a b h => compareSources_keeps_disjoint st now a b h,
   fun r h => checkSourcesImpl_keeps_disjoint st now r h,
   fun ok source h hf => handleOpen_keeps_disjoint st ok source h hf,
   fun src code oo h hl hi hn => requestFailure_keeps_disjoint st now src code oo h hl hi hn⟩

/-- C4 (amended), witness: a concrete failing run — active `b:1094` fails,
recovery open delivers fresh `n:1094` — keeps the three collections
pairwise disjoint. -/
theorem sourceCollections_remain_disjoint_witness :
    collectionsDisjoint
      (requestFailure
        ⟨[⟨"b:1094", 20, ⟨0, 0⟩, 2⟩], [⟨"c:1094", 30, ⟨0, 0⟩, 3⟩], [⟨"d:1094", 40, ⟨0, 0⟩, 4⟩],
          ["d:1094"], ⟨900, 0⟩, ⟨950, 0⟩, false⟩
        ⟨1000, 0⟩ ⟨"b:1094", 20, ⟨0, 0⟩, 2⟩ StatusCode.otherError
        (OpenOutcome.opened ⟨"n:1094", 0, ⟨0, 0⟩, 9⟩)).1 :=
  (sourceCollections_remain_disjoint
      ⟨[⟨"b:1094", 20, ⟨0, 0⟩, 2⟩], [⟨"c:1094", 30, ⟨0, 0⟩, 3⟩], [⟨"d:1094", 40, ⟨0, 0⟩, 4⟩],
        ["d:1094"], ⟨900, 0⟩, ⟨950, 0⟩, false⟩ ⟨1000, 0⟩).2.2.2
    ⟨"b:1094", 20, ⟨0, 0⟩, 2⟩ StatusCode.otherError
    (OpenOutcome.opened ⟨"n:1094", 0, ⟨0, 0⟩, 9⟩)
    (by unfold collectionsDisjoint; decide)
    (by decide)
    (by decide)
    (by
      intro ns hns
      injection hns with h2
      subst h2
      exact ⟨by unfold sourceTags; decide, by decide⟩)
